import Mathlib

/-!
# paraminspector: a verification development of `main.go`

The Go program queries two web-archive indexes for every (domain, source) pair,
merges the answers under a mutex, keeps the URLs that match the regular
expression `\?.+=.+` and writes them to a file, one per line.

Modelling conventions.
* A Go `string` is a Lean `String`; where the program looks at single
  characters the string is read as its list of characters (`String.toList`),
  and where a library works on bytes (`net/url`) as the bytes of its UTF-8
  encoding.
* Library code the program calls (`regexp`, `net/http`, `encoding/json`,
  `bufio`, `os`, `sync`) is represented by small executable models of the part
  of its documented behaviour the program relies on; what the outside world
  answers (HTTP replies, file-system failures, the scheduler) is a parameter.
-/

namespace ParamInspector

/-! ## Regular expressions (`regexp`) -/

/-- Syntax of the regular expressions needed for the pattern compiled in
`extractParamURLs`. `anyCharNotNL` is Go's `.` without the `s` flag. -/
inductive Regex where
  | fail : Regex
  | empty : Regex
  | lit (c : Char) : Regex
  | anyCharNotNL : Regex
  | cat (a b : Regex) : Regex
  | alt (a b : Regex) : Regex
  | star (a : Regex) : Regex
  deriving DecidableEq, Repr

namespace Regex

/-- The operator `+` of the pattern syntax: one or more repetitions. -/
def plus (a : Regex) : Regex := cat a (star a)

/-- Does the expression accept the empty input? -/
def nullable : Regex → Bool
  | fail => false
  | empty => true
  | lit _ => false
  | anyCharNotNL => false
  | cat a b => nullable a && nullable b
  | alt a b => nullable a || nullable b
  | star _ => true

/-- Brzozowski derivative: what remains to be matched after reading `c`. -/
def deriv : Regex → Char → Regex
  | fail, _ => fail
  | empty, _ => fail
  | lit d, c => if c = d then empty else fail
  | anyCharNotNL, c => if c = '\n' then fail else empty
  | cat a b, c =>
      if nullable a then alt (cat (deriv a c) b) (deriv b c) else cat (deriv a c) b
  | alt a b, c => alt (deriv a c) (deriv b c)
  | star a, c => cat (deriv a c) (star a)

/-- Anchored at the start only: does some prefix of the input match? -/
def matchStart : Regex → List Char → Bool
  | r, [] => nullable r
  | r, c :: cs => nullable r || matchStart (deriv r c) cs

/-- Unanchored search: does a match start at some position of the input? -/
def search (r : Regex) : List Char → Bool
  | [] => matchStart r []
  | c :: cs => matchStart r (c :: cs) || search r cs

/-- Model of `(*Regexp).MatchString`: the string contains a match. -/
def MatchString (r : Regex) (s : String) : Bool := search r s.toList

/-- Declarative meaning of an expression: the inputs it matches entirely. -/
inductive Matches : Regex → List Char → Prop
  | empty : Matches Regex.empty []
  | lit (c : Char) : Matches (Regex.lit c) [c]
  | anyCharNotNL (c : Char) : c ≠ '\n' → Matches Regex.anyCharNotNL [c]
  | cat {a b : Regex} {s t : List Char} :
      Matches a s → Matches b t → Matches (Regex.cat a b) (s ++ t)
  | altLeft {a b : Regex} {s : List Char} : Matches a s → Matches (Regex.alt a b) s
  | altRight {a b : Regex} {s : List Char} : Matches b s → Matches (Regex.alt a b) s
  | starNil {a : Regex} : Matches (Regex.star a) []
  | starCons {a : Regex} {s t : List Char} :
      Matches a s → Matches (Regex.star a) t → Matches (Regex.star a) (s ++ t)

end Regex

/-! ## The parameter filter -/

/-- The pattern of `regexp.MustCompile` in `extractParamURLs`: a question mark,
one or more characters, an equals sign, one or more characters. -/
def paramRegex : Regex :=
  Regex.cat (Regex.lit '?')
    (Regex.cat (Regex.plus Regex.anyCharNotNL)
      (Regex.cat (Regex.lit '=') (Regex.plus Regex.anyCharNotNL)))

/-- The loop of `extractParamURLs`: every URL the pattern matches is appended
to the initially empty result. -/
def extractParamURLs (urls : List String) : List String :=
  urls.foldl
    (fun paramURLs u => if paramRegex.MatchString u then paramURLs ++ [u] else paramURLs)
    []

/-- The filter predicate in the words of the specification: the URL has a `?`
that is followed, inside the query component (hence before any `#`, which
starts the fragment), by an `=`, with at least one character between the two
and at least one character after the `=`. -/
def SpecQualifies (u : String) : Prop :=
  ∃ pre a b, u.toList = pre ++ '?' :: (a ++ '=' :: b) ∧ a ≠ [] ∧ b ≠ [] ∧
    '#' ∉ pre ++ '?' :: a

/-- The filter predicate the pattern really computes: a `?`, then a non-empty
run of characters other than line feed, then an `=`, then one more character
that is not a line feed; where in the URL this happens does not matter. -/
def PatternQualifies (u : String) : Prop :=
  ∃ pre a c post, u.toList = pre ++ '?' :: (a ++ '=' :: c :: post) ∧ a ≠ [] ∧
    '\n' ∉ a ∧ c ≠ '\n'

/-! ## JSON values and decoding (`encoding/json`) -/

/-- A parsed JSON document. An object keeps its members in document order,
duplicates included. -/
inductive Json where
  | null : Json
  | bool (b : Bool) : Json
  | num (literal : String) : Json
  | str (s : String) : Json
  | arr (elems : List Json) : Json
  | obj (members : List (String × Json)) : Json

/-- Why a source adapter returned a non-nil `error`. -/
inductive FetchError where
  | transport (cause : String) : FetchError
  | status (code : Nat) : FetchError
  | read (cause : String) : FetchError
  | decode (cause : String) : FetchError
  deriving DecidableEq, Repr

/-- Decoding the elements of a JSON array into a Go slice: the first element
that does not fit the element type makes `json.Unmarshal` return an error. -/
def unmarshalSlice {β : Type} (f : Json → Except FetchError β) :
    List Json → Except FetchError (List β)
  | [] => Except.ok []
  | j :: js =>
    match f j with
    | Except.error e => Except.error e
    | Except.ok v =>
      match unmarshalSlice f js with
      | Except.error e => Except.error e
      | Except.ok vs => Except.ok (v :: vs)

/-- Decoding into a Go `string`: a JSON string is taken over, `null` leaves
the zero value, anything else is a type error. -/
def unmarshalString : Json → Except FetchError String
  | Json.str s => Except.ok s
  | Json.null => Except.ok ""
  | _ => Except.error (FetchError.decode "json: cannot unmarshal into Go value of type string")

/-- Decoding into a Go `[]string`. -/
def unmarshalStrings : Json → Except FetchError (List String)
  | Json.arr elems => unmarshalSlice unmarshalString elems
  | Json.null => Except.ok []
  | _ => Except.error (FetchError.decode "json: cannot unmarshal into Go value of type []string")

/-- Decoding into the `[][]string` of `fetchWaybackURLs`. -/
def unmarshalRows : Json → Except FetchError (List (List String))
  | Json.arr rows => unmarshalSlice unmarshalStrings rows
  | Json.null => Except.ok []
  | _ => Except.error (FetchError.decode "json: cannot unmarshal into Go value of type [][]string")

/-- A Go `map[string]interface{}`: the dynamic value stored under each key. -/
abbrev GoMap := String → Option Json

/-- Storing the members of a JSON object into a map, in document order: a
later member overwrites an earlier one with the same key. -/
def storeMembers (members : List (String × Json)) : GoMap :=
  members.foldl (fun m kv => fun k => if k = kv.1 then some kv.2 else m k) (fun _ => none)

/-- Decoding into a Go `map[string]interface{}`: any JSON object fits,
`null` gives the nil map, anything else is a type error. -/
def unmarshalObject : Json → Except FetchError GoMap
  | Json.obj members => Except.ok (storeMembers members)
  | Json.null => Except.ok (fun _ => none)
  | _ => Except.error (FetchError.decode "json: cannot unmarshal into Go value of type map")

/-- Decoding into the `[]map[string]interface{}` of `fetchCommonCrawlURLs`. -/
def unmarshalObjects : Json → Except FetchError (List GoMap)
  | Json.arr rows => unmarshalSlice unmarshalObject rows
  | Json.null => Except.ok []
  | _ => Except.error (FetchError.decode "json: cannot unmarshal into Go value of type []map")

/-- The type assertion `entry["url"].(string)`: it succeeds when the key is
present and holds a JSON string. -/
def assertString : Option Json → Option String
  | some (Json.str s) => some s
  | _ => none

/-! ## HTTP (`net/http`) -/

/-- What reading and parsing a response body gives: a read failure, or the
text received, which either is a JSON document or is not (`none`). -/
inductive Body where
  | readError (cause : String) : Body
  | text (parsed : Option Json) : Body

/-- The outcome of one `GET`: no response at all, or a status code and a
body. -/
inductive HttpResult where
  | failed (cause : String) : HttpResult
  | response (status : Nat) (body : Body) : HttpResult

/-- One exchange with a server as the outside world decides it: how long it
takes, in nanoseconds (the unit of `time.Duration`), and how it ends. -/
structure Exchange where
  elapsed : Nat
  result : HttpResult

/-- Model of `http.Get`: it uses `http.DefaultClient`, whose `Timeout` is zero
("no timeout"), so the call waits for the end of the exchange however long it
takes and hands back its result. -/
def httpGet (world : String → Exchange) (url : String) : HttpResult :=
  (world url).result

/-! ## The source adapters -/

/-- The `fmt.Sprintf` of `fetchWaybackURLs`: `%s` inserts the domain as it
is. -/
def waybackRequestURL (domain : String) : String :=
  "http://web.archive.org/cdx/search/cdx?url=" ++ domain
    ++ "/*&output=json&fl=original&collapse=urlkey"

/-- The `fmt.Sprintf` of `fetchCommonCrawlURLs`. -/
def commonCrawlRequestURL (domain : String) : String :=
  "http://index.commoncrawl.org/CC-MAIN-2023-04-index?url=" ++ domain ++ "/*&output=json"

/-- Source adapter for the Wayback Machine. -/
def fetchWaybackURLs (world : String → Exchange) (domain : String) :
    Except FetchError (List String) :=
  let apiURL := waybackRequestURL domain
  match httpGet world apiURL with
  | HttpResult.failed cause => Except.error (FetchError.transport cause)
  | HttpResult.response status body =>
    if status ≠ 200 then Except.error (FetchError.status status)
    else
      match body with
      | Body.readError cause => Except.error (FetchError.read cause)
      | Body.text none => Except.error (FetchError.decode "invalid JSON")
      | Body.text (some doc) =>
        match unmarshalRows doc with
        | Except.error e => Except.error e
        | Except.ok result =>
          Except.ok (result.foldl
            (fun urls entry => if entry.length > 0 then urls ++ [entry.getD 0 ""] else urls)
            [])

/-- Source adapter for Common Crawl. -/
def fetchCommonCrawlURLs (world : String → Exchange) (domain : String) :
    Except FetchError (List String) :=
  let apiURL := commonCrawlRequestURL domain
  match httpGet world apiURL with
  | HttpResult.failed cause => Except.error (FetchError.transport cause)
  | HttpResult.response status body =>
    if status ≠ 200 then Except.error (FetchError.status status)
    else
      match body with
      | Body.readError cause => Except.error (FetchError.read cause)
      | Body.text none => Except.error (FetchError.decode "invalid JSON")
      | Body.text (some doc) =>
        match unmarshalObjects doc with
        | Except.error e => Except.error e
        | Except.ok result =>
          Except.ok (result.foldl
            (fun urls entry =>
              match assertString (entry "url") with
              | some url => urls ++ [url]
              | none => urls)
            [])

/-- A response row of the Wayback shape: an array of strings. -/
def Json.stringRow (row : List String) : Json := Json.arr (row.map Json.str)

/-- Where a goroutine running the closure `fetch` stands. -/
inductive Pc where
  /-- Spawned; the `switch` with the adapter call comes next. -/
  | start : Pc
  /-- The adapter returned `urls` without error; `mu.Lock()` comes next. -/
  | wantLock (urls : List String) : Pc
  /-- Holds `mu`; reading `allURLs` for the `append` comes next. -/
  | locked (urls : List String) : Pc
  /-- Holds `mu` and has read `old` from `allURLs`; the assignment
  `allURLs = append(old, urls...)` comes next. -/
  | loaded (urls old : List String) : Pc
  /-- Holds `mu`; `mu.Unlock()` comes next. -/
  | stored : Pc
  /-- The body is over; the deferred `wg.Done()` comes next. -/
  | returning : Pc
  /-- The goroutine has ended. -/
  | finished : Pc
  deriving DecidableEq, Repr

/-- A spawned goroutine: the arguments of its call of `fetch`, its position
`id` in spawn order (which selects what the network answers to it) and its
program counter. -/
structure Goroutine where
  id : Nat
  domain : String
  source : String
  pc : Pc
  deriving DecidableEq, Repr

/-- A state of one call of `fetchURLsConcurrently`. -/
structure State where
  /-- The (domain, source) pairs the nested loops have still to spawn. -/
  pending : List (String × String)
  /-- The goroutines spawned so far, in spawn order. -/
  gs : List Goroutine
  /-- Is `mu` locked? -/
  mu : Bool
  allURLs : List String
  /-- The counter of `wg`. -/
  wg : Nat
  /-- The value returned, once the function has returned. -/
  result : Option (List String)
  deriving DecidableEq, Repr

/-- An event of the interleaving: the main goroutine, or the spawned
goroutine at a position of `gs`, performs its next statement. -/
inductive Event where
  | main : Event
  | go (i : Nat) : Event
  deriving DecidableEq, Repr

/-- The iteration space of the nested loops: every domain with every source,
domains in the outer loop. -/
def crossProduct (domains sources : List String) : List (String × String) :=
  domains.flatMap (fun domain => sources.map (fun source => (domain, source)))

/-- The `switch` of `fetch` together with the error check that follows it:
an unknown source or a failed adapter call leads to the `return`, a successful
call leads on to `mu.Lock()` with the URLs it returned. -/
def fetchBody (world : String → Exchange) (domain source : String) : Pc :=
  if source = "wayback" then
    match fetchWaybackURLs world domain with
    | Except.error _ => Pc.returning
    | Except.ok urls => Pc.wantLock urls
  else if source = "commoncrawl" then
    match fetchCommonCrawlURLs world domain with
    | Except.error _ => Pc.returning
    | Except.ok urls => Pc.wantLock urls
  else Pc.returning

/-- The state in which `fetchURLsConcurrently` starts. The parameter `timeout`
(a `time.Duration`, in nanoseconds) is received and, as in the source, used
nowhere. -/
def initState (domains sources : List String) (_timeout : Nat) : State :=
  { pending := crossProduct domains sources, gs := [], mu := false, allURLs := [],
    wg := 0, result := none }

/-- The next statement of the main goroutine: `wg.Add(1); go fetch(domain,
source)` for the next pair; after the loops `wg.Wait()`, which blocks while the
counter is not zero, followed by `return allURLs`. -/
def stepMain (s : State) : Option State :=
  match s.result with
  | some _ => none
  | none =>
    match s.pending with
    | (domain, source) :: rest =>
      some { s with
        pending := rest
        wg := s.wg + 1
        gs := s.gs ++ [{ id := s.gs.length, domain := domain, source := source,
                         pc := Pc.start }] }
    | [] => if s.wg = 0 then some { s with result := some s.allURLs } else none

/-- The next statement of the goroutine at position `i`; `none` when there is
no such goroutine, when it has ended, or when it is blocked in `mu.Lock()`.
`net k` is what the network answers to the goroutine spawned `k`-th. -/
def stepGo (net : Nat → String → Exchange) (s : State) (i : Nat) : Option State :=
  match s.gs[i]? with
  | none => none
  | some g =>
    match g.pc with
    | Pc.start =>
      some { s with gs := s.gs.set i { g with pc := fetchBody (net g.id) g.domain g.source } }
    | Pc.wantLock urls =>
      if s.mu then none
      else some { s with mu := true, gs := s.gs.set i { g with pc := Pc.locked urls } }
    | Pc.locked urls =>
      some { s with gs := s.gs.set i { g with pc := Pc.loaded urls s.allURLs } }
    | Pc.loaded urls old =>
      some { s with allURLs := old ++ urls, gs := s.gs.set i { g with pc := Pc.stored } }
    | Pc.stored =>
      some { s with mu := false, gs := s.gs.set i { g with pc := Pc.returning } }
    | Pc.returning =>
      some { s with wg := s.wg - 1, gs := s.gs.set i { g with pc := Pc.finished } }
    | Pc.finished => none

/-- One event. -/
def step (net : Nat → String → Exchange) (s : State) : Event → Option State
  | Event.main => stepMain s
  | Event.go i => stepGo net s i

/-- A schedule, event after event; `none` when an event of the schedule cannot
happen in the state reached. -/
def run (net : Nat → String → Exchange) : State → List Event → Option State
  | s, [] => some s
  | s, e :: es =>
    match step net s e with
    | none => none
    | some s1 => run net s1 es

/-- The value `fetchURLsConcurrently` returns along a schedule, if the schedule
can happen and leads to the `return`. -/
def fetchURLsConcurrently (net : Nat → String → Exchange) (domains sources : List String)
    (timeout : Nat) (schedule : List Event) : Option (List String) :=
  match run net (initState domains sources timeout) schedule with
  | none => none
  | some s => s.result

/-- What the adapter call of a pair gives: the URLs of a successful call,
`none` for a failed call or an unknown source. -/
def adapterOutcome (world : String → Exchange) (domain source : String) :
    Option (List String) :=
  if source = "wayback" then (fetchWaybackURLs world domain).toOption
  else if source = "commoncrawl" then (fetchCommonCrawlURLs world domain).toOption
  else none

/-- What a pair contributes to the aggregate. -/
def contribution (world : String → Exchange) (domain source : String) : List String :=
  (adapterOutcome world domain source).getD []

/-- The contributions of all pairs, concatenated in spawn order. -/
def allContributions (net : Nat → String → Exchange) (domains sources : List String) :
    List String :=
  ((crossProduct domains sources).enum).flatMap
    (fun t => contribution (net t.1) t.2.1 t.2.2)

/-- Does a goroutine at this point hold `mu`? -/
def Pc.holdsLock : Pc → Bool
  | Pc.locked _ => true
  | Pc.loaded _ _ => true
  | Pc.stored => true
  | _ => false

/-- The URLs a goroutine carries from the adapter call to the `append`. -/
def Pc.carried : Pc → Option (List String)
  | Pc.wantLock urls => some urls
  | Pc.locked urls => some urls
  | Pc.loaded urls _ => some urls
  | _ => none

/-- Is a goroutine past the point where it appends, if it appends at all? -/
def Pc.pastAppend : Pc → Bool
  | Pc.stored => true
  | Pc.returning => true
  | Pc.finished => true
  | _ => false

/-- The number of statements a goroutine has at most still to perform. -/
def Pc.rank : Pc → Nat
  | Pc.start => 6
  | Pc.wantLock _ => 5
  | Pc.locked _ => 4
  | Pc.loaded _ _ => 3
  | Pc.stored => 2
  | Pc.returning => 1
  | Pc.finished => 0

/-- What a goroutine has put into `allURLs` so far. -/
def appendedBy (net : Nat → String → Exchange) (g : Goroutine) : List String :=
  if g.pc.pastAppend then contribution (net g.id) g.domain g.source else []

/-- An upper bound on the number of events that can still happen. -/
def State.fuel (s : State) : Nat :=
  (if s.result = none then 1 else 0) + 7 * s.pending.length
    + (s.gs.map (fun g => g.pc.rank)).sum

/-- The invariant of the interleaving semantics for the pairs `tasks`. -/
structure Inv (net : Nat → String → Exchange) (tasks : List (String × String))
    (s : State) : Prop where
  /-- Spawned and pending pairs together are the iteration space, in order. -/
  tasks_eq : s.gs.map (fun g => (g.id, (g.domain, g.source)))
      ++ s.pending.enumFrom s.gs.length = tasks.enum
  /-- The URLs a goroutine carries are those its adapter call returned. -/
  carried_eq : ∀ g ∈ s.gs, ∀ urls, g.pc.carried = some urls →
      fetchBody (net g.id) g.domain g.source = Pc.wantLock urls
  /-- Between its read and its write of `allURLs` a goroutine has the current
  value: nobody else writes meanwhile. -/
  loaded_eq : ∀ g ∈ s.gs, ∀ urls old, g.pc = Pc.loaded urls old → old = s.allURLs
  /-- Mutual exclusion: `mu` is locked exactly when one goroutine holds it, and
  never two do. -/
  holders : (s.gs.map (fun g => if g.pc.holdsLock then 1 else 0)).sum
      = if s.mu then 1 else 0
  /-- The wait-group counter counts the goroutines that have not ended. -/
  wg_eq : s.wg = (s.gs.map (fun g => if g.pc = Pc.finished then 0 else 1)).sum
  /-- As a multiset, `allURLs` is what the goroutines have appended. -/
  urls_eq : (s.allURLs : Multiset String)
      = (s.gs.map (fun g => (appendedBy net g : Multiset String))).sum
  /-- The function returns only after the loops and the wait, with the value
  of `allURLs`. -/
  returned : ∀ out, s.result = some out → s.pending = [] ∧ s.wg = 0 ∧ out = s.allURLs

/-! ### Concrete networks and schedules -/

/-- An exchange that takes `elapsed` nanoseconds and ends with status 200 and
a body of one-element rows, one per URL. -/
def answer (elapsed : Nat) (urls : List String) : Exchange :=
  { elapsed := elapsed
    result := HttpResult.response 200
      (Body.text (some (Json.arr (urls.map (fun u => Json.stringRow [u]))))) }

/-- An exchange that ends without a response. -/
def refused : Exchange := { elapsed := 1, result := HttpResult.failed "connection refused" }

/-- A network on which every call fails. -/
def allDown : Nat → String → Exchange := fun _ _ => refused

/-- A network that answers the first goroutine with one URL and the third with
another. -/
def twoAnswers : Nat → String → Exchange := fun k _ =>
  if k = 0 then answer 5 ["http://a.com/?x=1"]
  else if k = 2 then answer 5 ["http://b.com/?y=2"]
  else refused

/-- A network that answers the first goroutine with two URLs and every other
with two others. -/
def pairAnswers : Nat → String → Exchange := fun k _ =>
  if k = 0 then answer 5 ["http://a.com/?x=1", "http://a.com/"]
  else answer 5 ["http://b.com/?y=2", "http://b.com/"]

/-- A network whose answer takes 60 seconds. -/
def slowAnswer : Nat → String → Exchange := fun _ _ => answer 60000000000 ["http://a.com/?x=1"]

/-- A network on which only the call of goroutine `k` succeeds, with the two
URLs of the example of the specification. -/
def onlyAnswer (k : Nat) : Nat → String → Exchange := fun i _ =>
  if i = k then answer 5 ["http://a.com/?x=1", "http://a.com/"] else refused

/-- A schedule for four pairs in which the third goroutine appends before the
first. -/
def lateFirst : List Event :=
  [Event.main, Event.main, Event.main, Event.main,
   Event.go 0, Event.go 2, Event.go 1, Event.go 3, Event.go 2, Event.go 2, Event.go 1,
   Event.go 2, Event.go 2, Event.go 0, Event.go 2, Event.go 0, Event.go 0, Event.go 0,
   Event.go 3, Event.go 0, Event.main]

/-- A schedule for four pairs of which only the third has a successful
call. -/
def oneSucceeds : List Event :=
  [Event.main, Event.main, Event.main, Event.main,
   Event.go 2, Event.go 0, Event.go 1, Event.go 2, Event.go 3, Event.go 2, Event.go 0,
   Event.go 2, Event.go 2, Event.go 1, Event.go 3, Event.go 2, Event.main]

/-- A schedule for six pairs whose calls all fail. -/
def allDownSchedule : List Event :=
  [Event.main, Event.main, Event.go 0, Event.main, Event.main, Event.go 1, Event.go 0,
   Event.main, Event.main, Event.go 5, Event.go 4, Event.go 3, Event.go 2, Event.go 1,
   Event.go 2, Event.go 3, Event.go 4, Event.go 5, Event.main]

/-- A schedule for two pairs in which the second goroutine is spawned and
locks the mutex while the first waits for it. -/
def interleaved : List Event :=
  [Event.main, Event.go 0, Event.main, Event.go 1, Event.go 1, Event.go 1, Event.go 1,
   Event.go 1, Event.go 0, Event.go 0, Event.go 1, Event.go 0, Event.go 0, Event.go 0,
   Event.main]

/-! ## Reading a request URL back (`net/url`)

`net/url` works on the bytes of a Go string. A byte is a natural number below
256 here, and a string is read as the bytes of its UTF-8 encoding. -/

/-- Model of `utf8.EncodeRune`: the bytes of the UTF-8 encoding of a
character. -/
def encodeRune (c : Char) : List Nat :=
  if c.toNat < 0x80 then [c.toNat]
  else if c.toNat < 0x800 then [0xC0 + c.toNat / 0x40, 0x80 + c.toNat % 0x40]
  else if c.toNat < 0x10000 then
    [0xE0 + c.toNat / 0x1000, 0x80 + c.toNat / 0x40 % 0x40, 0x80 + c.toNat % 0x40]
  else
    [0xF0 + c.toNat / 0x40000, 0x80 + c.toNat / 0x1000 % 0x40, 0x80 + c.toNat / 0x40 % 0x40,
      0x80 + c.toNat % 0x40]

/-- The bytes of a string. -/
def bytes (s : String) : List Nat := s.toList.flatMap encodeRune

/-- Model of `strings.Cut` with a one-element separator: the text before the
first separator and, when there is one, the text after it. -/
def cut {α : Type} [DecidableEq α] (sep : α) : List α → List α × Option (List α)
  | [] => ([], none)
  | c :: cs => if c = sep then ([], some cs) else ((c :: (cut sep cs).1), (cut sep cs).2)

/-- The pieces of a text between the occurrences of a separator. -/
def splitOn {α : Type} [DecidableEq α] (sep : α) : List α → List (List α)
  | [] => [[]]
  | c :: cs =>
    if c = sep then [] :: splitOn sep cs
    else
      match splitOn sep cs with
      | [] => [[c]]
      | seg :: segs => (c :: seg) :: segs

/-- The raw query of a URL as `url.Parse` finds it: the fragment is cut off at
the first `#`, the query is what follows the first `?` of the rest. -/
def rawQuery (url : List Nat) : List Nat :=
  ((cut '?'.toNat (cut '#'.toNat url).1).2).getD []

/-- Value of the byte of a hexadecimal digit. -/
def unhex (b : Nat) : Option Nat :=
  if '0'.toNat ≤ b ∧ b ≤ '9'.toNat then some (b - '0'.toNat)
  else if 'a'.toNat ≤ b ∧ b ≤ 'f'.toNat then some (b - 'a'.toNat + 10)
  else if 'A'.toNat ≤ b ∧ b ≤ 'F'.toNat then some (b - 'A'.toNat + 10)
  else none

/-- Model of `url.QueryUnescape`: `+` stands for a space, `%XY` for the byte
with hexadecimal value `XY`, and a `%` not followed by two hexadecimal digits
is an error. -/
def queryUnescape : List Nat → Option (List Nat)
  | [] => some []
  | b :: bs =>
    if b = '%'.toNat then
      match bs with
      | h :: l :: rest =>
        match unhex h, unhex l, queryUnescape rest with
        | some x, some y, some r => some ((16 * x + y) :: r)
        | _, _, _ => none
      | _ => none
    else if b = '+'.toNat then (queryUnescape bs).map (fun r => ' '.toNat :: r)
    else (queryUnescape bs).map (fun r => b :: r)

/-- One `key=value` setting of a query as `url.ParseQuery` reads it: a setting
that contains a semicolon, is empty or does not unescape is skipped. -/
def parseSetting (setting : List Nat) : Option (List Nat × List Nat) :=
  if ';'.toNat ∈ setting then none
  else if setting = [] then none
  else
    match queryUnescape (cut '='.toNat setting).1,
      queryUnescape ((cut '='.toNat setting).2.getD []) with
    | some key, some value => some (key, value)
    | _, _ => none

/-- Model of `url.ParseQuery`: the settings between the `&`, in order. -/
def parseQuery (query : List Nat) : List (List Nat × List Nat) :=
  (splitOn '&'.toNat query).filterMap parseSetting

/-- The decoded value of a query parameter of a URL, as bytes: the first value
`URL.Query()` holds for the key (`Values.Get`), `none` when it holds none. -/
def queryGet (url : String) (key : String) : Option (List Nat) :=
  ((parseQuery (rawQuery (bytes url))).find? (fun kv => kv.1 = bytes key)).map
    (fun kv => kv.2)

/-- What the file system does during one call of `saveToFile`, as the outside
world decides it. -/
structure FileWorld where
  /-- The error of `os.Create` for a path, if it fails there. -/
  createError : String → Option String
  /-- How the `k`-th `Write` on the file ends: `none` when everything is
  written, `some n` when it fails after at most `n` characters. -/
  writeError : Nat → Option Nat

/-- An open file: what has been written to it and how many `Write` calls it
has served. -/
structure File where
  content : List Char
  writes : Nat

/-- Model of `(*os.File).Write`: the file after the call, the number of
characters written, and whether an error is returned. -/
def File.write (w : FileWorld) (f : File) (p : List Char) : File × Nat × Bool :=
  match w.writeError f.writes with
  | none => ({ content := f.content ++ p, writes := f.writes + 1 }, p.length, false)
  | some n =>
    ({ content := f.content ++ p.take n, writes := f.writes + 1 }, min n p.length, true)

/-- The size of the buffer of `bufio.NewWriter`. Lengths are counted in
characters here; Go counts bytes, which moves the moments at which the buffer
is passed on but not what is passed on. -/
def defaultBufSize : Nat := 4096

/-- A `bufio.Writer` on a file: the buffered data `buf[0:n]` and whether the
sticky error `err` is set. -/
structure Writer where
  file : File
  buf : List Char
  err : Bool

/-- Model of `(*bufio.Writer).Available`. -/
def Writer.available (b : Writer) : Nat := defaultBufSize - b.buf.length

/-- Model of `(*bufio.Writer).Flush`; the error it returns is the field `err`
of the writer afterwards. -/
def Writer.flush (w : FileWorld) (b : Writer) : Writer :=
  if b.err then b
  else if b.buf.length = 0 then b
  else
    if (b.file.write w b.buf).2.2 || decide ((b.file.write w b.buf).2.1 < b.buf.length) then
      { file := (b.file.write w b.buf).1, buf := b.buf.drop (b.file.write w b.buf).2.1,
        err := true }
    else { file := (b.file.write w b.buf).1, buf := [], err := false }

/-- The loop of `(*bufio.Writer).Write`: while the data does not fit into the
buffer and no error is set, either write it through (empty buffer) or fill the
buffer and flush it. Returns the writer and the data still to be buffered. -/
def Writer.writeLoop (w : FileWorld) : Nat → Writer → List Char → Writer × List Char
  | 0, b, p => (b, p)
  | fuel + 1, b, p =>
    if p.length > b.available ∧ b.err = false then
      if b.buf.length = 0 then
        Writer.writeLoop w fuel
          { b with file := (b.file.write w p).1, err := (b.file.write w p).2.2 }
          (p.drop (b.file.write w p).2.1)
      else
        Writer.writeLoop w fuel
          (Writer.flush w { b with buf := b.buf ++ p.take b.available })
          (p.drop b.available)
    else (b, p)

/-- Model of `(*bufio.Writer).Write`. The loop runs at most twice (one flush,
one write-through); three rounds of fuel let it reach its exit test. -/
def Writer.write (w : FileWorld) (b : Writer) (p : List Char) : Writer :=
  if (Writer.writeLoop w 3 b p).1.err then (Writer.writeLoop w 3 b p).1
  else
    { (Writer.writeLoop w 3 b p).1 with
      buf := (Writer.writeLoop w 3 b p).1.buf ++ (Writer.writeLoop w 3 b p).2 }

/-- The files of the file system: the content stored under each path. -/
abbrev Disk := String → Option (List Char)

/-- Model of `saveToFile`: the disk afterwards and the error returned (`none`
for `nil`). `os.Create` creates or truncates the file; every URL is written
with `fmt.Fprintln`, whose result is ignored; the result is that of `Flush`. -/
def saveToFile (w : FileWorld) (disk : Disk) (urls : List String) (filename : String) :
    Disk × Option String :=
  match w.createError filename with
  | some e => (disk, some e)
  | none =>
    let writer : Writer := { file := { content := [], writes := 0 }, buf := [], err := false }
    let written := urls.foldl (fun b u => Writer.write w b (u.toList ++ ['\n'])) writer
    let flushed := Writer.flush w written
    (fun path => if path = filename then some flushed.file.content else disk path,
      if flushed.err then some "write error" else none)

/-- The lines of a text file: the pieces between line feeds, without the empty
piece after a final line feed. -/
def fileLines (content : List Char) : List String :=
  let pieces := splitOn '\n' content
  (if pieces.getLast? = some [] then pieces.dropLast else pieces).map String.mk

/-- A file system on which nothing fails. -/
def healthy : FileWorld := { createError := fun _ => none, writeError := fun _ => none }

/-- The steps of `main` after flag parsing, along a schedule of the fetch:
`fetchURLsConcurrently`, `extractParamURLs`, `saveToFile`; the result is the
disk afterwards and the error of the save. `none` when the schedule does not
lead to the `return` of the fetch. -/
def main (net : Nat → String → Exchange) (w : FileWorld) (disk : Disk)
    (domainList sourceList : List String) (timeout : Nat) (output : String)
    (schedule : List Event) : Option (Disk × Option String) :=
  match fetchURLsConcurrently net domainList sourceList timeout schedule with
  | none => none
  | some allURLs => some (saveToFile w disk (extractParamURLs allURLs) output)

/-! # Theorems -/

/-! ## Correctness of the matcher against the declarative meaning -/

namespace Regex

theorem matches_fail_iff {u : List Char} : Matches fail u ↔ False := by
  constructor
  · intro h; cases h
  · intro h; exact h.elim

theorem matches_empty_iff {u : List Char} : Matches empty u ↔ u = [] := by
  constructor
  · intro h; cases h; rfl
  · intro h; subst h; exact Matches.empty

theorem matches_lit_iff {c : Char} {u : List Char} : Matches (lit c) u ↔ u = [c] := by
  constructor
  · intro h; cases h; rfl
  · intro h; subst h; exact Matches.lit c

theorem matches_any_iff {u : List Char} :
    Matches anyCharNotNL u ↔ ∃ c, c ≠ '\n' ∧ u = [c] := by
  constructor
  · intro h; cases h with
    | anyCharNotNL c hc => exact ⟨c, hc, rfl⟩
  · rintro ⟨c, hc, rfl⟩; exact Matches.anyCharNotNL c hc

theorem matches_cat_iff {a b : Regex} {u : List Char} :
    Matches (cat a b) u ↔ ∃ s t, u = s ++ t ∧ Matches a s ∧ Matches b t := by
  constructor
  · intro h; cases h with
    | cat h1 h2 => exact ⟨_, _, rfl, h1, h2⟩
  · rintro ⟨s, t, rfl, h1, h2⟩; exact Matches.cat h1 h2

theorem matches_alt_iff {a b : Regex} {u : List Char} :
    Matches (alt a b) u ↔ Matches a u ∨ Matches b u := by
  constructor
  · intro h; cases h with
    | altLeft h1 => exact Or.inl h1
    | altRight h1 => exact Or.inr h1
  · rintro (h | h)
    · exact Matches.altLeft h
    · exact Matches.altRight h

/-- A non-empty match of a starred expression starts with a non-empty match of
its body. -/
theorem matches_star_cons {a : Regex} {r : Regex} {u : List Char} (h : Matches r u) :
    ∀ (c : Char) (v : List Char), r = star a → u = c :: v →
      ∃ s t, v = s ++ t ∧ Matches a (c :: s) ∧ Matches (star a) t := by
  induction h with
  | empty => intro c v hr; cases hr
  | lit d => intro c v hr; cases hr
  | anyCharNotNL d hd => intro c v hr; cases hr
  | cat h1 h2 _ _ => intro c v hr; cases hr
  | altLeft h1 _ => intro c v hr; cases hr
  | altRight h1 _ => intro c v hr; cases hr
  | starNil => intro c v _ hu; cases hu
  | @starCons a0 s t h1 h2 _ ih2 =>
    intro c v hr hu
    cases hr
    cases s with
    | nil => exact ih2 c v rfl (by simpa using hu)
    | cons d s1 =>
      simp only [List.cons_append, List.cons.injEq] at hu
      obtain ⟨rfl, rfl⟩ := hu
      exact ⟨s1, t, rfl, h1, h2⟩

theorem nullable_iff (r : Regex) : nullable r = true ↔ Matches r [] := by
  induction r with
  | fail => simp [nullable, matches_fail_iff]
  | empty => simp [nullable, matches_empty_iff]
  | lit c => simp [nullable, matches_lit_iff]
  | anyCharNotNL => simp [nullable, matches_any_iff]
  | cat a b iha ihb =>
    simp only [nullable, Bool.and_eq_true, iha, ihb, matches_cat_iff]
    constructor
    · rintro ⟨h1, h2⟩; exact ⟨[], [], rfl, h1, h2⟩
    · rintro ⟨s, t, hst, h1, h2⟩
      have hs : s = [] ∧ t = [] := by simpa using hst.symm
      rw [hs.1] at h1; rw [hs.2] at h2
      exact ⟨h1, h2⟩
  | alt a b iha ihb => simp only [nullable, Bool.or_eq_true, iha, ihb, matches_alt_iff]
  | star a _ => simp only [nullable, true_iff]; exact Matches.starNil

theorem matches_deriv (r : Regex) : ∀ (c : Char) (u : List Char),
    Matches (deriv r c) u ↔ Matches r (c :: u) := by
  induction r with
  | fail => intro c u; simp [deriv, matches_fail_iff]
  | empty => intro c u; simp [deriv, matches_fail_iff, matches_empty_iff]
  | lit d =>
    intro c u
    by_cases h : c = d
    · simp [deriv, h, matches_empty_iff, matches_lit_iff]
    · simp [deriv, h, matches_fail_iff, matches_lit_iff]
  | anyCharNotNL =>
    intro c u
    by_cases h : c = '\n'
    · simp only [deriv, h, if_true, matches_fail_iff, matches_any_iff, false_iff]
      rintro ⟨d, hd, hds⟩
      simp only [List.cons.injEq] at hds
      exact hd hds.1.symm
    · simp only [deriv, h, if_false, matches_empty_iff, matches_any_iff]
      constructor
      · rintro rfl; exact ⟨c, h, rfl⟩
      · rintro ⟨d, _, hd⟩
        simp only [List.cons.injEq] at hd
        exact hd.2
  | cat a b iha ihb =>
    intro c u
    have key : Matches (cat a b) (c :: u) ↔
        (∃ s t, u = s ++ t ∧ Matches a (c :: s) ∧ Matches b t) ∨
          (Matches a [] ∧ Matches b (c :: u)) := by
      rw [matches_cat_iff]
      constructor
      · rintro ⟨s, t, hst, h1, h2⟩
        cases s with
        | nil => right; simp only [List.nil_append] at hst; rw [hst]; exact ⟨h1, h2⟩
        | cons d s1 =>
          simp only [List.cons_append, List.cons.injEq] at hst
          obtain ⟨rfl, rfl⟩ := hst
          exact Or.inl ⟨s1, t, rfl, h1, h2⟩
      · rintro (⟨s, t, rfl, h1, h2⟩ | ⟨h1, h2⟩)
        · exact ⟨c :: s, t, rfl, h1, h2⟩
        · exact ⟨[], c :: u, rfl, h1, h2⟩
    rw [key]
    by_cases hn : nullable a = true
    · have hn2 := (nullable_iff a).1 hn
      rw [deriv, if_pos hn]
      simp only [matches_alt_iff, matches_cat_iff, iha, ihb]
      constructor
      · rintro (h | h)
        · exact Or.inl h
        · exact Or.inr ⟨hn2, h⟩
      · rintro (h | ⟨_, h⟩)
        · exact Or.inl h
        · exact Or.inr h
    · have hn2 : ¬ Matches a [] := fun h => hn ((nullable_iff a).2 h)
      rw [deriv, if_neg hn]
      simp only [matches_cat_iff, iha]
      constructor
      · intro h; exact Or.inl h
      · rintro (h | ⟨h, _⟩)
        · exact h
        · exact (hn2 h).elim
  | alt a b iha ihb => intro c u; simp only [deriv, matches_alt_iff, iha, ihb]
  | star a iha =>
    intro c u
    simp only [deriv, matches_cat_iff, iha]
    constructor
    · rintro ⟨s, t, rfl, h1, h2⟩
      exact Matches.starCons h1 h2
    · intro h
      exact matches_star_cons h c u rfl rfl

/-- The anchored matcher succeeds exactly when a prefix of the input is
matched. -/
theorem matchStart_iff : ∀ (u : List Char) (r : Regex),
    matchStart r u = true ↔ ∃ p q, u = p ++ q ∧ Matches r p := by
  intro u
  induction u with
  | nil =>
    intro r
    simp only [matchStart, nullable_iff]
    constructor
    · intro h; exact ⟨[], [], rfl, h⟩
    · rintro ⟨p, q, hpq, h⟩
      have hp : p = [] ∧ q = [] := by simpa using hpq.symm
      rw [hp.1] at h; exact h
  | cons c cs ih =>
    intro r
    simp only [matchStart, Bool.or_eq_true, nullable_iff, ih, matches_deriv]
    constructor
    · rintro (h | ⟨p, q, rfl, h⟩)
      · exact ⟨[], c :: cs, rfl, h⟩
      · exact ⟨c :: p, q, rfl, h⟩
    · rintro ⟨p, q, hpq, h⟩
      cases p with
      | nil => exact Or.inl h
      | cons d p1 =>
        simp only [List.cons_append, List.cons.injEq] at hpq
        obtain ⟨rfl, rfl⟩ := hpq
        exact Or.inr ⟨p1, q, rfl, h⟩

/-- The unanchored search succeeds exactly when some infix of the input is
matched. -/
theorem search_iff (r : Regex) : ∀ (u : List Char),
    search r u = true ↔ ∃ pre p post, u = pre ++ p ++ post ∧ Matches r p := by
  intro u
  induction u with
  | nil =>
    simp only [search, matchStart_iff]
    constructor
    · rintro ⟨p, q, hpq, h⟩; exact ⟨[], p, q, by simpa using hpq, h⟩
    · rintro ⟨pre, p, post, hpq, h⟩
      have hp : pre = [] ∧ p = [] ∧ post = [] := by simpa using hpq.symm
      exact ⟨[], [], rfl, by rw [← hp.2.1]; exact h⟩
  | cons c cs ih =>
    simp only [search, Bool.or_eq_true, matchStart_iff, ih]
    constructor
    · rintro (⟨p, q, hpq, h⟩ | ⟨pre, p, post, rfl, h⟩)
      · exact ⟨[], p, q, by simpa using hpq, h⟩
      · exact ⟨c :: pre, p, post, by simp, h⟩
    · rintro ⟨pre, p, post, hpq, h⟩
      cases pre with
      | nil => exact Or.inl ⟨p, post, by simpa using hpq, h⟩
      | cons d pre1 =>
        simp only [List.cons_append, List.cons.injEq] at hpq
        obtain ⟨rfl, rfl⟩ := hpq
        exact Or.inr ⟨pre1, p, post, by simp, h⟩

/-- The inputs of `.*`: those without a line feed. -/
theorem matches_star_any_iff : ∀ (u : List Char),
    Matches (star anyCharNotNL) u ↔ '\n' ∉ u := by
  intro u
  induction u with
  | nil => simp only [List.not_mem_nil, not_false_eq_true, iff_true]; exact Matches.starNil
  | cons c cs ih =>
    constructor
    · intro h
      obtain ⟨s, t, rfl, h1, h2⟩ := matches_star_cons h c cs rfl rfl
      obtain ⟨d, hd, hds⟩ := matches_any_iff.1 h1
      simp only [List.cons.injEq] at hds
      obtain ⟨rfl, rfl⟩ := hds
      have := ih.1 h2
      simp only [List.nil_append] at this ⊢
      intro hmem
      rcases List.mem_cons.1 hmem with h3 | h3
      · exact hd h3.symm
      · exact this h3
    · intro h
      have hc : c ≠ '\n' := fun e => h (by rw [e]; exact List.mem_cons_self _ _)
      have hcs : '\n' ∉ cs := fun e => h (List.mem_cons_of_mem _ e)
      exact Matches.starCons (Matches.anyCharNotNL c hc) (ih.2 hcs)

/-- The inputs of `.+`: the non-empty ones without a line feed. -/
theorem matches_plus_any_iff (u : List Char) :
    Matches (plus anyCharNotNL) u ↔ u ≠ [] ∧ '\n' ∉ u := by
  unfold plus
  rw [matches_cat_iff]
  constructor
  · rintro ⟨s, t, rfl, h1, h2⟩
    obtain ⟨d, hd, rfl⟩ := matches_any_iff.1 h1
    refine ⟨by simp, ?_⟩
    have := (matches_star_any_iff t).1 h2
    intro hmem
    rcases List.mem_cons.1 hmem with h3 | h3
    · exact hd h3.symm
    · exact this h3
  · rintro ⟨hne, hnl⟩
    cases u with
    | nil => exact (hne rfl).elim
    | cons c cs =>
      have hc : c ≠ '\n' := fun e => hnl (by rw [e]; exact List.mem_cons_self _ _)
      have hcs : '\n' ∉ cs := fun e => hnl (List.mem_cons_of_mem _ e)
      exact ⟨[c], cs, rfl, Matches.anyCharNotNL c hc, (matches_star_any_iff cs).2 hcs⟩

end Regex

/-- The inputs the whole pattern matches: `?`, a non-empty run without line
feed, `=`, a non-empty run without line feed. -/
theorem matches_paramRegex_iff (u : List Char) :
    Regex.Matches paramRegex u ↔
      ∃ a b, u = '?' :: (a ++ '=' :: b) ∧ a ≠ [] ∧ '\n' ∉ a ∧ b ≠ [] ∧ '\n' ∉ b := by
  unfold paramRegex
  simp only [Regex.matches_cat_iff, Regex.matches_lit_iff, Regex.matches_plus_any_iff]
  constructor
  · rintro ⟨s, t, rfl, rfl, a, t2, rfl, ⟨ha1, ha2⟩, s3, b, rfl, rfl, hb1, hb2⟩
    exact ⟨a, b, by simp, ha1, ha2, hb1, hb2⟩
  · rintro ⟨a, b, rfl, ha1, ha2, hb1, hb2⟩
    exact ⟨['?'], a ++ '=' :: b, rfl, rfl, a, '=' :: b, rfl, ⟨ha1, ha2⟩, ['='], b, rfl, rfl,
      hb1, hb2⟩

/-- The pattern finds a match in a string exactly when the string has the shape
described by `PatternQualifies`. -/
theorem matchString_paramRegex_iff (u : String) :
    paramRegex.MatchString u = true ↔ PatternQualifies u := by
  unfold Regex.MatchString PatternQualifies
  rw [Regex.search_iff]
  constructor
  · rintro ⟨pre, p, post, hu, hp⟩
    obtain ⟨a, b, rfl, ha1, ha2, hb1, hb2⟩ := (matches_paramRegex_iff p).1 hp
    cases b with
    | nil => exact (hb1 rfl).elim
    | cons c b1 =>
      refine ⟨pre, a, c, b1 ++ post, ?_, ha1, ha2, ?_⟩
      · rw [hu]; simp
      · intro e; exact hb2 (by rw [e]; exact List.mem_cons_self _ _)
  · rintro ⟨pre, a, c, post, hu, ha1, ha2, hc⟩
    refine ⟨pre, '?' :: (a ++ '=' :: [c]), post, ?_, ?_⟩
    · rw [hu]; simp
    · refine (matches_paramRegex_iff _).2 ⟨a, [c], rfl, ha1, ha2, by simp, ?_⟩
      intro hmem
      rcases List.mem_cons.1 hmem with h3 | h3
      · exact hc h3.symm
      · cases h3

/-- The accumulating loop of `extractParamURLs` is a filter. -/
theorem extractParamURLs_loop (urls : List String) : ∀ acc : List String,
    urls.foldl
        (fun paramURLs u => if paramRegex.MatchString u then paramURLs ++ [u] else paramURLs)
        acc
      = acc ++ urls.filter (fun u => paramRegex.MatchString u) := by
  induction urls with
  | nil => intro acc; simp
  | cons u us ih =>
    intro acc
    rw [List.foldl_cons, ih]
    by_cases h : paramRegex.MatchString u = true
    · simp [h]
    · simp [h]

theorem extractParamURLs_eq_filter (urls : List String) :
    extractParamURLs urls = urls.filter (fun u => paramRegex.MatchString u) := by
  unfold extractParamURLs
  rw [extractParamURLs_loop]
  simp

/-- A character standing before the first `#` of a list belongs to the part of
the list that precedes the fragment. -/
theorem mem_takeWhile_before_hash (x : Char) (hx : x ≠ '#') (r : List Char) :
    ∀ p : List Char, '#' ∉ p → x ∈ (p ++ x :: r).takeWhile (fun c => decide (c ≠ '#')) := by
  intro p
  induction p with
  | nil => intro _; simp [List.takeWhile, hx]
  | cons y p1 ih =>
    intro hp
    have hy : y ≠ '#' := fun e => hp (by rw [e]; exact List.mem_cons_self _ _)
    have hp1 : '#' ∉ p1 := fun e => hp (List.mem_cons_of_mem _ e)
    simp only [List.cons_append, List.takeWhile, hy, ne_eq, not_false_eq_true, decide_True]
    exact List.mem_cons_of_mem _ (ih hp1)

/-! ## Claims about the parameter filter -/

/-- C1 (refuted as stated): the pattern is searched in the whole string, so
`https://x.com/a?b#c=1`, whose only `=` lies in the fragment and not in the query
component, is kept although the stated condition fails for it; and `.` does not
match a line feed, so `https://x.com/a?b=` followed by a line feed is dropped
although the stated condition holds for it. -/
theorem extractParamURLs_not_query_component :
    (extractParamURLs ["https://x.com/a?b#c=1"] = ["https://x.com/a?b#c=1"] ∧
        ¬ SpecQualifies "https://x.com/a?b#c=1") ∧
      (extractParamURLs ["https://x.com/a?b=\n"] = [] ∧
        SpecQualifies "https://x.com/a?b=\n") := by
  refine ⟨⟨by decide, ?_⟩, by decide, ?_⟩
  · rintro ⟨pre, a, b, hu, _, _, hhash⟩
    have hmem := mem_takeWhile_before_hash '=' (by decide) b (pre ++ '?' :: a) hhash
    have hu2 : (pre ++ '?' :: a) ++ '=' :: b = "https://x.com/a?b#c=1".toList := by
      rw [hu]; simp
    rw [hu2] at hmem
    revert hmem
    decide
  · exact ⟨"https://x.com/a".toList, ['b'], ['\n'], by decide, by decide, by decide, by decide⟩

/-- C1 (amended): `extractParamURLs` keeps a URL of its input exactly when the
URL contains, anywhere, a `?` followed by at least one character, then an `=`,
then at least one more character, where neither the characters between `?` and
`=` nor the character right after `=` is a line feed. It keeps
`https://x.com/a?b=1` and drops `https://x.com/a` and `https://x.com/a?b`. -/
theorem extractParamURLs_keeps_iff :
    (∀ (urls : List String) (u : String),
        u ∈ extractParamURLs urls ↔ (u ∈ urls ∧ PatternQualifies u)) ∧
      extractParamURLs ["https://x.com/a?b=1"] = ["https://x.com/a?b=1"] ∧
      extractParamURLs ["https://x.com/a"] = [] ∧
      extractParamURLs ["https://x.com/a?b"] = [] := by
  refine ⟨?_, by decide, by decide, by decide⟩
  intro urls u
  rw [extractParamURLs_eq_filter, List.mem_filter, matchString_paramRegex_iff]

/-- C2: the output of `extractParamURLs` is a sublist of its input (same
elements, same relative order), and every URL occurs in the output as often as
in the input when the pattern matches it and not at all otherwise: nothing is
deduplicated. -/
theorem extractParamURLs_sublist (urls : List String) :
    List.Sublist (extractParamURLs urls) urls ∧
      extractParamURLs urls ⊆ urls ∧
      ∀ u : String, (extractParamURLs urls).count u =
        if paramRegex.MatchString u = true then urls.count u else 0 := by
  rw [extractParamURLs_eq_filter]
  refine ⟨List.filter_sublist _, (List.filter_sublist _).subset, ?_⟩
  intro u
  by_cases h : paramRegex.MatchString u = true
  · rw [if_pos h, List.count_filter (by simpa using h)]
  · rw [if_neg h, List.count_eq_zero]
    intro hmem
    exact h (List.mem_filter.1 hmem).2

/-! ## Claims about the source adapters -/

theorem splitOn_append {α : Type} [DecidableEq α] (sep : α) (b : List α) :
    ∀ a : List α, sep ∉ a → splitOn sep (a ++ sep :: b) = a :: splitOn sep b := by
  intro a
  induction a with
  | nil => intro _; simp [splitOn]
  | cons c cs ih =>
    intro h
    have hc : c ≠ sep := fun e => h (by rw [e]; exact List.mem_cons_self _ _)
    have hcs : sep ∉ cs := fun e => h (List.mem_cons_of_mem _ e)
    rw [List.cons_append, splitOn, if_neg hc, ih hcs]

/-- The model of `url.QueryUnescape` yields bytes: the escapes `%C3%A9` are
read back as the two bytes of the letter e with acute accent. -/
theorem queryGet_escaped_bytes :
    queryGet (waybackRequestURL "%C3%A9.com") "url" = some (bytes "é.com/*") := by
  decide

/-- Replacing the entry at a position changes a sum over the list by the
difference of the two entries. -/
theorem sum_map_set {M : Type} [AddCommMonoid M] (φ : Goroutine → M) (g g1 : Goroutine) :
    ∀ (gs : List Goroutine) (i : Nat), gs[i]? = some g →
      ((gs.set i g1).map φ).sum + φ g = (gs.map φ).sum + φ g1 := by
  intro gs
  induction gs with
  | nil => intro i h; simp at h
  | cons x xs ih =>
    intro i h
    cases i with
    | zero =>
      simp only [List.getElem?_cons_zero, Option.some.injEq] at h
      subst h
      simp only [List.set_cons_zero, List.map_cons, List.sum_cons]
      abel
    | succ j =>
      simp only [List.getElem?_cons_succ] at h
      simp only [List.set_cons_succ, List.map_cons, List.sum_cons]
      rw [add_assoc, ih j h, add_assoc]

/-- Replacing the entry at a position by one with the same image leaves the
mapped list unchanged. -/
theorem map_set_same {β : Type} (φ : Goroutine → β) (g g1 : Goroutine) (hφ : φ g1 = φ g) :
    ∀ (gs : List Goroutine) (i : Nat), gs[i]? = some g → (gs.set i g1).map φ = gs.map φ := by
  intro gs
  induction gs with
  | nil => intro i h; simp at h
  | cons x xs ih =>
    intro i h
    cases i with
    | zero =>
      simp only [List.getElem?_cons_zero, Option.some.injEq] at h
      subst h
      simp only [List.set_cons_zero, List.map_cons, hφ]
    | succ j =>
      simp only [List.getElem?_cons_succ] at h
      simp only [List.set_cons_succ, List.map_cons, ih j h]

theorem fetchBody_cases (world : String → Exchange) (domain source : String) :
    fetchBody world domain source = Pc.returning ∨
      ∃ urls, fetchBody world domain source = Pc.wantLock urls := by
  unfold fetchBody
  split
  · split
    · exact Or.inl rfl
    · exact Or.inr ⟨_, rfl⟩
  · split
    · split
      · exact Or.inl rfl
      · exact Or.inr ⟨_, rfl⟩
    · exact Or.inl rfl

theorem inv_init (net : Nat → String → Exchange) (domains sources : List String)
    (timeout : Nat) :
    Inv net (crossProduct domains sources) (initState domains sources timeout) := by
  constructor
  · simp [initState, List.enum]
  · intro g hg; simp [initState] at hg
  · intro g hg; simp [initState] at hg
  · simp [initState]
  · simp [initState]
  · simp [initState]
  · intro out h; simp [initState] at h

theorem inv_stepMain (net : Nat → String → Exchange) (tasks : List (String × String))
    (s s1 : State) (hI : Inv net tasks s) (h : stepMain s = some s1) : Inv net tasks s1 := by
  unfold stepMain at h
  cases hres : s.result with
  | some out => simp [hres] at h
  | none =>
    simp only [hres] at h
    cases hp : s.pending with
    | nil =>
      simp only [hp] at h
      by_cases hw : s.wg = 0
      · simp only [hw, if_true, Option.some.injEq] at h
        subst h
        constructor
        · simpa [hp] using hI.tasks_eq
        · exact hI.carried_eq
        · exact hI.loaded_eq
        · exact hI.holders
        · simpa [hw] using hI.wg_eq
        · exact hI.urls_eq
        · intro out ho
          simp only [Option.some.injEq] at ho
          exact ⟨rfl, rfl, ho.symm⟩
      · simp [hw] at h
    | cons t rest =>
      obtain ⟨domain, source⟩ := t
      simp only [hp, Option.some.injEq] at h
      subst h
      have ht := hI.tasks_eq
      rw [hp] at ht
      constructor
      · simpa [List.enumFrom] using ht
      · intro g hg urls hc
        simp only [List.mem_append, List.mem_singleton] at hg
        rcases hg with hg | rfl
        · exact hI.carried_eq g hg urls hc
        · simp [Pc.carried] at hc
      · intro g hg urls old hc
        simp only [List.mem_append, List.mem_singleton] at hg
        rcases hg with hg | rfl
        · exact hI.loaded_eq g hg urls old hc
        · simp at hc
      · simpa [Pc.holdsLock] using hI.holders
      · simp [hI.wg_eq]
      · simpa [appendedBy, Pc.pastAppend] using hI.urls_eq
      · intro out ho
        simp [hres] at ho

theorem le_sum_of_mem (φ : Goroutine → Nat) : ∀ (gs : List Goroutine) (g : Goroutine),
    g ∈ gs → φ g ≤ (gs.map φ).sum := by
  intro gs
  induction gs with
  | nil => intro g h; simp at h
  | cons x xs ih =>
    intro g h
    simp only [List.map_cons, List.sum_cons]
    rcases List.mem_cons.1 h with rfl | h1
    · exact Nat.le_add_right _ _
    · exact Nat.le_trans (ih g h1) (Nat.le_add_left _ _)

/-- A goroutine that has not ended keeps the function from returning. -/
theorem result_none_of_unfinished (net : Nat → String → Exchange)
    (tasks : List (String × String)) (s : State) (hI : Inv net tasks s) (i : Nat)
    (g : Goroutine) (hg : s.gs[i]? = some g) (hpc : g.pc ≠ Pc.finished) : s.result = none := by
  cases hres : s.result with
  | none => rfl
  | some out =>
    exfalso
    have hw := (hI.returned out hres).2.1
    have hle := le_sum_of_mem (fun g => if g.pc = Pc.finished then 0 else 1) s.gs g
      (List.getElem?_mem hg)
    rw [← hI.wg_eq, hw] at hle
    simp [hpc] at hle

/-- While a goroutine holds `mu`, no other goroutine does: the list with the
holder replaced by a goroutine that has released the lock has no holder. -/
theorem no_other_holder (net : Nat → String → Exchange) (tasks : List (String × String))
    (s : State) (hI : Inv net tasks s) (i : Nat) (g : Goroutine) (hg : s.gs[i]? = some g)
    (hh : g.pc.holdsLock = true) (g1 : Goroutine) (hh1 : g1.pc.holdsLock = false) :
    s.mu = true ∧ ∀ x ∈ s.gs.set i g1, x.pc.holdsLock = false := by
  have hsum := sum_map_set (fun g => if g.pc.holdsLock then 1 else 0) g g1 s.gs i hg
  simp only [hh, hh1, if_true, Bool.false_eq_true, if_false, Nat.add_zero] at hsum
  have hhold := hI.holders
  rw [hhold] at hsum
  have hmu : s.mu = true := by
    cases hm : s.mu with
    | true => rfl
    | false => rw [hm] at hsum; simp at hsum
  refine ⟨hmu, ?_⟩
  intro x hx
  have hle := le_sum_of_mem (fun g => if g.pc.holdsLock then 1 else 0) (s.gs.set i g1) x hx
  rw [hmu] at hsum
  have h0 : (List.map (fun g : Goroutine => if g.pc.holdsLock then 1 else 0)
      (s.gs.set i g1)).sum = 0 := by
    simp only [if_true] at hsum
    omega
  rw [h0] at hle
  cases hxh : x.pc.holdsLock with
  | false => rfl
  | true => simp [hxh] at hle

/-- The invariant survives a statement of a goroutine, given what the
statement does to the goroutine and to the shared variables. -/
theorem inv_update (net : Nat → String → Exchange) (tasks : List (String × String))
    (s : State) (hI : Inv net tasks s) (i : Nat) (g : Goroutine) (hg : s.gs[i]? = some g)
    (pc1 : Pc) (mu1 : Bool) (all1 : List String) (wg1 : Nat)
    (hne : g.pc ≠ Pc.finished)
    (hcar : ∀ urls, pc1.carried = some urls →
      fetchBody (net g.id) g.domain g.source = Pc.wantLock urls)
    (hload : ∀ urls old, pc1 = Pc.loaded urls old → old = all1)
    (hall : all1 = s.allURLs ∨ g.pc.holdsLock = true)
    (hhold : (if pc1.holdsLock then 1 else 0) + (if s.mu then 1 else 0)
      = (if g.pc.holdsLock then 1 else 0) + (if mu1 then 1 else 0))
    (hwg : wg1 + 1 = s.wg + (if pc1 = Pc.finished then 0 else 1))
    (hurls : (all1 : Multiset String) + (appendedBy net g : Multiset String)
      = (s.allURLs : Multiset String)
        + (appendedBy net { g with pc := pc1 } : Multiset String)) :
    Inv net tasks
      { s with gs := s.gs.set i { g with pc := pc1 }, mu := mu1, allURLs := all1, wg := wg1 } := by
  have hres := result_none_of_unfinished net tasks s hI i g hg hne
  constructor
  · show List.map (fun g => (g.id, (g.domain, g.source))) (s.gs.set i { g with pc := pc1 })
        ++ s.pending.enumFrom (s.gs.set i { g with pc := pc1 }).length = tasks.enum
    rw [map_set_same (fun g => (g.id, (g.domain, g.source))) g { g with pc := pc1 } rfl
      s.gs i hg, List.length_set]
    exact hI.tasks_eq
  · intro x hx urls hc
    rcases List.mem_or_eq_of_mem_set hx with hx1 | rfl
    · exact hI.carried_eq x hx1 urls hc
    · exact hcar urls hc
  · intro x hx urls old hc
    show old = all1
    rcases hall with hall | hall
    · rcases List.mem_or_eq_of_mem_set hx with hx1 | rfl
      · rw [hall]; exact hI.loaded_eq x hx1 urls old hc
      · exact hload urls old hc
    · have hno := (no_other_holder net tasks s hI i g hg hall { g with pc := Pc.returning }
        rfl).2
      have hx2 : x ∈ (s.gs.set i { g with pc := Pc.returning }).set i { g with pc := pc1 } := by
        rw [List.set_set]; exact hx
      rcases List.mem_or_eq_of_mem_set hx2 with hx1 | rfl
      · have := hno x hx1
        rw [hc] at this
        simp [Pc.holdsLock] at this
      · exact hload urls old hc
  · show (List.map (fun g : Goroutine => if g.pc.holdsLock then 1 else 0)
        (s.gs.set i { g with pc := pc1 })).sum = if mu1 then 1 else 0
    have hsum := sum_map_set (fun g => if g.pc.holdsLock then 1 else 0) g { g with pc := pc1 }
      s.gs i hg
    have hhold0 := hI.holders
    simp only at hsum
    omega
  · show wg1 = (List.map (fun g : Goroutine => if g.pc = Pc.finished then 0 else 1)
        (s.gs.set i { g with pc := pc1 })).sum
    have hsum := sum_map_set (fun g => if g.pc = Pc.finished then 0 else 1) g
      { g with pc := pc1 } s.gs i hg
    have hwg0 := hI.wg_eq
    simp only [hne, if_false] at hsum
    omega
  · show (all1 : Multiset String)
        = (List.map (fun g => (appendedBy net g : Multiset String))
            (s.gs.set i { g with pc := pc1 })).sum
    have hsum := sum_map_set (fun g => (appendedBy net g : Multiset String)) g
      { g with pc := pc1 } s.gs i hg
    simp only at hsum
    rw [← hI.urls_eq, ← hurls] at hsum
    exact (add_right_cancel hsum).symm
  · intro out ho
    have : s.result = some out := ho
    rw [hres] at this
    cases this

/-- The goroutine goes on to the `append` exactly with the URLs of a
successful adapter call. -/
theorem fetchBody_eq (world : String → Exchange) (domain source : String) :
    fetchBody world domain source
      = match adapterOutcome world domain source with
        | some urls => Pc.wantLock urls
        | none => Pc.returning := by
  unfold fetchBody adapterOutcome
  by_cases h1 : source = "wayback"
  · simp only [h1, if_true]
    cases fetchWaybackURLs world domain <;> rfl
  · by_cases h2 : source = "commoncrawl"
    · simp only [h1, h2, if_true, if_false]
      cases fetchCommonCrawlURLs world domain <;> rfl
    · simp only [h1, h2, if_false]

theorem contribution_of_wantLock (world : String → Exchange) (domain source : String)
    (urls : List String) (h : fetchBody world domain source = Pc.wantLock urls) :
    contribution world domain source = urls := by
  rw [fetchBody_eq] at h
  unfold contribution
  cases ho : adapterOutcome world domain source with
  | none => rw [ho] at h; cases h
  | some us =>
    rw [ho] at h
    simp only [Pc.wantLock.injEq] at h
    simp [h]

theorem contribution_of_returning (world : String → Exchange) (domain source : String)
    (h : fetchBody world domain source = Pc.returning) :
    contribution world domain source = [] := by
  rw [fetchBody_eq] at h
  unfold contribution
  cases ho : adapterOutcome world domain source with
  | none => rfl
  | some us => rw [ho] at h; cases h

theorem inv_stepGo (net : Nat → String → Exchange) (tasks : List (String × String))
    (s s1 : State) (i : Nat) (hI : Inv net tasks s) (h : stepGo net s i = some s1) :
    Inv net tasks s1 := by
  unfold stepGo at h
  cases hg : s.gs[i]? with
  | none => simp [hg] at h
  | some g =>
    simp only [hg] at h
    have hwgpos : g.pc ≠ Pc.finished → 1 ≤ s.wg := by
      intro hne
      have hle := le_sum_of_mem (fun g => if g.pc = Pc.finished then 0 else 1) s.gs g
        (List.getElem?_mem hg)
      rw [← hI.wg_eq] at hle
      simpa [hne] using hle
    cases hpc : g.pc with
    | start =>
      simp only [hpc, Option.some.injEq] at h
      subst h
      have hne : g.pc ≠ Pc.finished := by rw [hpc]; simp
      have hw := hwgpos hne
      rcases fetchBody_cases (net g.id) g.domain g.source with hb | ⟨urls, hb⟩
      · refine inv_update net tasks s hI i g hg _ s.mu s.allURLs s.wg hne ?_ ?_ (Or.inl rfl)
          ?_ ?_ ?_
        · intro urls hc; rw [hb] at hc; simp [Pc.carried] at hc
        · intro urls old hc; rw [hb] at hc; cases hc
        · simp [hb, hpc, Pc.holdsLock]
        · simp [hb]
        · simp [appendedBy, hb, hpc, Pc.pastAppend, contribution_of_returning _ _ _ hb]
      · refine inv_update net tasks s hI i g hg _ s.mu s.allURLs s.wg hne ?_ ?_ (Or.inl rfl)
          ?_ ?_ ?_
        · intro urls1 hc; rw [hb] at hc
          simp only [Pc.carried, Option.some.injEq] at hc
          rw [← hc]; exact hb
        · intro urls1 old hc; rw [hb] at hc; cases hc
        · simp [hb, hpc, Pc.holdsLock]
        · simp [hb]
        · simp [appendedBy, hb, hpc, Pc.pastAppend]
    | wantLock urls =>
      simp only [hpc] at h
      cases hmu : s.mu with
      | true => simp [hmu] at h
      | false =>
        simp only [hmu, Bool.false_eq_true, if_false, Option.some.injEq] at h
        subst h
        have hne : g.pc ≠ Pc.finished := by rw [hpc]; simp
        have hw := hwgpos hne
        refine inv_update net tasks s hI i g hg _ true s.allURLs s.wg hne ?_ ?_ (Or.inl rfl)
          ?_ ?_ ?_
        · intro urls1 hc
          simp only [Pc.carried, Option.some.injEq] at hc
          rw [← hc]
          exact hI.carried_eq g (List.getElem?_mem hg) urls (by rw [hpc]; rfl)
        · intro urls1 old hc; cases hc
        · simp [hpc, hmu, Pc.holdsLock]
        · simp
        · simp [appendedBy, hpc, Pc.pastAppend]
    | locked urls =>
      simp only [hpc, Option.some.injEq] at h
      subst h
      have hne : g.pc ≠ Pc.finished := by rw [hpc]; simp
      have hw := hwgpos hne
      refine inv_update net tasks s hI i g hg _ s.mu s.allURLs s.wg hne ?_ ?_ (Or.inl rfl)
        ?_ ?_ ?_
      · intro urls1 hc
        simp only [Pc.carried, Option.some.injEq] at hc
        rw [← hc]
        exact hI.carried_eq g (List.getElem?_mem hg) urls (by rw [hpc]; rfl)
      · intro urls1 old hc
        simp only [Pc.loaded.injEq] at hc
        exact hc.2.symm
      · simp [hpc, Pc.holdsLock]
      · simp
      · simp [appendedBy, hpc, Pc.pastAppend]
    | loaded urls old =>
      simp only [hpc, Option.some.injEq] at h
      subst h
      have hne : g.pc ≠ Pc.finished := by rw [hpc]; simp
      have hw := hwgpos hne
      have hold : old = s.allURLs := hI.loaded_eq g (List.getElem?_mem hg) urls old hpc
      have hcon : contribution (net g.id) g.domain g.source = urls :=
        contribution_of_wantLock _ _ _ _
          (hI.carried_eq g (List.getElem?_mem hg) urls (by rw [hpc]; rfl))
      refine inv_update net tasks s hI i g hg _ s.mu (old ++ urls) s.wg hne ?_ ?_
        (Or.inr (by rw [hpc]; rfl)) ?_ ?_ ?_
      · intro urls1 hc; simp [Pc.carried] at hc
      · intro urls1 old1 hc; cases hc
      · simp [hpc, Pc.holdsLock]
      · simp
      · simp only [appendedBy, hpc, Pc.pastAppend, hcon, hold]
        simp
    | stored =>
      simp only [hpc, Option.some.injEq] at h
      subst h
      have hne : g.pc ≠ Pc.finished := by rw [hpc]; simp
      have hw := hwgpos hne
      have hmu := (no_other_holder net tasks s hI i g hg (by rw [hpc]; rfl)
        { g with pc := Pc.returning } rfl).1
      refine inv_update net tasks s hI i g hg _ false s.allURLs s.wg hne ?_ ?_ (Or.inl rfl)
        ?_ ?_ ?_
      · intro urls1 hc; simp [Pc.carried] at hc
      · intro urls1 old1 hc; cases hc
      · simp [hpc, hmu, Pc.holdsLock]
      · simp
      · simp [appendedBy, hpc, Pc.pastAppend]
    | returning =>
      simp only [hpc, Option.some.injEq] at h
      subst h
      have hne : g.pc ≠ Pc.finished := by rw [hpc]; simp
      have hw := hwgpos hne
      refine inv_update net tasks s hI i g hg _ s.mu s.allURLs (s.wg - 1) hne ?_ ?_
        (Or.inl rfl) ?_ ?_ ?_
      · intro urls1 hc; simp [Pc.carried] at hc
      · intro urls1 old1 hc; cases hc
      · simp [hpc, Pc.holdsLock]
      · simp only [if_true]; omega
      · simp [appendedBy, hpc, Pc.pastAppend]
    | finished => simp [hpc] at h

theorem inv_step (net : Nat → String → Exchange) (tasks : List (String × String))
    (s s1 : State) (e : Event) (hI : Inv net tasks s) (h : step net s e = some s1) :
    Inv net tasks s1 := by
  cases e with
  | main => exact inv_stepMain net tasks s s1 hI h
  | go i => exact inv_stepGo net tasks s s1 i hI h

theorem inv_run (net : Nat → String → Exchange) (tasks : List (String × String)) :
    ∀ (schedule : List Event) (s s1 : State), Inv net tasks s →
      run net s schedule = some s1 → Inv net tasks s1 := by
  intro schedule
  induction schedule with
  | nil =>
    intro s s1 hI h
    simp only [run, Option.some.injEq] at h
    rw [← h]; exact hI
  | cons e es ih =>
    intro s s1 hI h
    simp only [run] at h
    cases hs : step net s e with
    | none => simp [hs] at h
    | some s2 =>
      simp only [hs] at h
      exact ih s2 s1 (inv_step net tasks s s2 e hI hs) h

theorem coe_flatMap {α : Type} (f : α → List String) : ∀ l : List α,
    ((l.flatMap f : List String) : Multiset String)
      = (l.map (fun a => (f a : Multiset String))).sum := by
  intro l
  induction l with
  | nil => simp
  | cons x xs ih =>
    rw [List.flatMap_cons, List.map_cons, List.sum_cons, ← ih, Multiset.coe_add]

/-- In a state in which the function has returned, the value returned is a
permutation of the contributions of all pairs. -/
theorem returned_perm (net : Nat → String → Exchange) (tasks : List (String × String))
    (s : State) (hI : Inv net tasks s) (out : List String) (hres : s.result = some out) :
    List.Perm out ((tasks.enum).flatMap (fun t => contribution (net t.1) t.2.1 t.2.2)) := by
  obtain ⟨hp, hw, hout⟩ := hI.returned out hres
  have hfin : ∀ g ∈ s.gs, g.pc = Pc.finished := by
    intro g hg
    have hle := le_sum_of_mem (fun g => if g.pc = Pc.finished then 0 else 1) s.gs g hg
    rw [← hI.wg_eq, hw] at hle
    by_contra hne
    simp [hne] at hle
  have happ : s.gs.map (fun g => (appendedBy net g : Multiset String))
      = (s.gs.map (fun g => (g.id, (g.domain, g.source)))).map
          (fun t : Nat × String × String =>
            (contribution (net t.1) t.2.1 t.2.2 : Multiset String)) := by
    rw [List.map_map]
    apply List.map_congr_left
    intro g hg
    simp [appendedBy, hfin g hg, Pc.pastAppend]
  have htasks := hI.tasks_eq
  rw [hp] at htasks
  simp only [List.enumFrom_nil, List.append_nil] at htasks
  have hsum := hI.urls_eq
  rw [happ, htasks] at hsum
  rw [hout]
  apply Multiset.coe_eq_coe.1
  rw [hsum, coe_flatMap]

/-- Whatever the schedule, a value returned by `fetchURLsConcurrently` is a
permutation of the contributions of all pairs. -/
theorem fetch_perm (net : Nat → String → Exchange) (domains sources : List String)
    (timeout : Nat) (schedule : List Event) (out : List String)
    (h : fetchURLsConcurrently net domains sources timeout schedule = some out) :
    List.Perm out (allContributions net domains sources) := by
  unfold fetchURLsConcurrently at h
  cases hr : run net (initState domains sources timeout) schedule with
  | none => simp [hr] at h
  | some s =>
    simp only [hr] at h
    have hI := inv_run net (crossProduct domains sources) schedule _ s
      (inv_init net domains sources timeout) hr
    exact returned_perm net _ s hI out h

/-! ### Every run comes to the `return` -/

theorem exists_of_sum_pos (φ : Goroutine → Nat) : ∀ gs : List Goroutine,
    0 < (gs.map φ).sum → ∃ (i : Nat) (g : Goroutine), gs[i]? = some g ∧ 0 < φ g := by
  intro gs
  induction gs with
  | nil => intro h; simp at h
  | cons x xs ih =>
    intro h
    simp only [List.map_cons, List.sum_cons] at h
    by_cases hx : 0 < φ x
    · exact ⟨0, x, by simp, hx⟩
    · have hxs : 0 < (xs.map φ).sum := by omega
      obtain ⟨i, g, hg, hpos⟩ := ih hxs
      exact ⟨i + 1, g, by simpa using hg, hpos⟩

/-- A goroutine that has not ended and is not waiting for a locked mutex can
perform its next statement. -/
theorem stepGo_enabled (net : Nat → String → Exchange) (s : State) (i : Nat) (g : Goroutine)
    (hg : s.gs[i]? = some g) (hne : g.pc ≠ Pc.finished)
    (hmu : g.pc.holdsLock = true ∨ s.mu = false) : ∃ s1, stepGo net s i = some s1 := by
  unfold stepGo
  simp only [hg]
  cases hpc : g.pc with
  | start => exact ⟨_, rfl⟩
  | wantLock urls =>
    rcases hmu with hmu | hmu
    · rw [hpc] at hmu; simp [Pc.holdsLock] at hmu
    · simp only [hmu, Bool.false_eq_true, if_false]; exact ⟨_, rfl⟩
  | locked urls => exact ⟨_, rfl⟩
  | loaded urls old => exact ⟨_, rfl⟩
  | stored => exact ⟨_, rfl⟩
  | returning => exact ⟨_, rfl⟩
  | finished => exact (hne hpc).elim

/-- No deadlock: as long as the function has not returned, some event can
happen. -/
theorem progress (net : Nat → String → Exchange) (tasks : List (String × String))
    (s : State) (hI : Inv net tasks s) (hres : s.result = none) :
    ∃ e s1, step net s e = some s1 := by
  cases hp : s.pending with
  | cons t rest =>
    refine ⟨Event.main, ?_⟩
    simp only [step, stepMain, hres, hp]
    exact ⟨_, rfl⟩
  | nil =>
    by_cases hw : s.wg = 0
    · refine ⟨Event.main, ?_⟩
      simp only [step, stepMain, hres, hp, hw, if_true]
      exact ⟨_, rfl⟩
    · have hpos : 0 < (s.gs.map (fun g => if g.pc = Pc.finished then 0 else 1)).sum := by
        rw [← hI.wg_eq]; omega
      obtain ⟨i, g, hg, hgpos⟩ := exists_of_sum_pos _ s.gs hpos
      have hne : g.pc ≠ Pc.finished := by
        intro e; simp [e] at hgpos
      cases hmu : s.mu with
      | false =>
        obtain ⟨s1, h1⟩ := stepGo_enabled net s i g hg hne (Or.inr hmu)
        exact ⟨Event.go i, s1, h1⟩
      | true =>
        have hpos2 : 0 < (s.gs.map (fun g => if g.pc.holdsLock then 1 else 0)).sum := by
          rw [hI.holders, hmu]; simp
        obtain ⟨j, h, hh, hhpos⟩ := exists_of_sum_pos _ s.gs hpos2
        have hhold : h.pc.holdsLock = true := by
          cases hx : h.pc.holdsLock with
          | true => rfl
          | false => simp [hx] at hhpos
        have hne2 : h.pc ≠ Pc.finished := by
          intro e; rw [e] at hhold; simp [Pc.holdsLock] at hhold
        obtain ⟨s1, h1⟩ := stepGo_enabled net s j h hh hne2 (Or.inl hhold)
        exact ⟨Event.go j, s1, h1⟩

/-- Every event uses up fuel. -/
theorem fuel_step (net : Nat → String → Exchange) (s s1 : State) (e : Event)
    (h : step net s e = some s1) : s1.fuel < s.fuel := by
  cases e with
  | main =>
    simp only [step, stepMain] at h
    cases hres : s.result with
    | some out => simp [hres] at h
    | none =>
      simp only [hres] at h
      cases hp : s.pending with
      | nil =>
        simp only [hp] at h
        by_cases hw : s.wg = 0
        · simp only [hw, if_true, Option.some.injEq] at h
          subst h
          simp [State.fuel, hres]
        · simp [hw] at h
      | cons t rest =>
        simp only [hp, Option.some.injEq] at h
        subst h
        simp only [State.fuel, hres, hp, List.length_cons, List.map_append, List.sum_append,
          List.map_cons, List.map_nil, List.sum_cons, List.sum_nil, Pc.rank, if_true]
        omega
  | go i =>
    simp only [step, stepGo] at h
    cases hg : s.gs[i]? with
    | none => simp [hg] at h
    | some g =>
      simp only [hg] at h
      have key : ∀ (pc1 : Pc) (mu1 : Bool) (all1 : List String) (wg1 : Nat),
          pc1.rank < g.pc.rank →
          State.fuel { s with gs := s.gs.set i { g with pc := pc1 }, mu := mu1,
                              allURLs := all1, wg := wg1 } < s.fuel := by
        intro pc1 mu1 all1 wg1 hr
        have hsum := sum_map_set (fun g => g.pc.rank) g { g with pc := pc1 } s.gs i hg
        simp only at hsum
        simp only [State.fuel]
        omega
      cases hpc : g.pc with
      | start =>
        simp only [hpc, Option.some.injEq] at h
        subst h
        apply key
        rw [hpc]
        rcases fetchBody_cases (net g.id) g.domain g.source with hb | ⟨urls, hb⟩ <;>
          simp [hb, Pc.rank]
      | wantLock urls =>
        simp only [hpc] at h
        cases hmu : s.mu with
        | true => simp [hmu] at h
        | false =>
          simp only [hmu, Bool.false_eq_true, if_false, Option.some.injEq] at h
          subst h
          apply key
          rw [hpc]; simp [Pc.rank]
      | locked urls =>
        simp only [hpc, Option.some.injEq] at h
        subst h
        apply key
        rw [hpc]; simp [Pc.rank]
      | loaded urls old =>
        simp only [hpc, Option.some.injEq] at h
        subst h
        apply key
        rw [hpc]; simp [Pc.rank]
      | stored =>
        simp only [hpc, Option.some.injEq] at h
        subst h
        apply key
        rw [hpc]; simp [Pc.rank]
      | returning =>
        simp only [hpc, Option.some.injEq] at h
        subst h
        apply key
        rw [hpc]; simp [Pc.rank]
      | finished => simp [hpc] at h

theorem run_append (net : Nat → String → Exchange) : ∀ (es fs : List Event) (s s1 : State),
    run net s es = some s1 → run net s (es ++ fs) = run net s1 fs := by
  intro es
  induction es with
  | nil =>
    intro fs s s1 h
    simp only [run, Option.some.injEq] at h
    rw [h]; rfl
  | cons e es ih =>
    intro fs s s1 h
    simp only [run, List.cons_append] at h ⊢
    cases hs : step net s e with
    | none => simp [hs] at h
    | some s2 =>
      simp only [hs] at h ⊢
      exact ih fs s2 s1 h

/-- From every state of a run the function can be brought to its `return`. -/
theorem completes (net : Nat → String → Exchange) (tasks : List (String × String)) :
    ∀ (n : Nat) (s : State), Inv net tasks s → s.fuel ≤ n →
      ∃ es s1 out, run net s es = some s1 ∧ s1.result = some out := by
  intro n
  induction n with
  | zero =>
    intro s hI hf
    cases hres : s.result with
    | some out => exact ⟨[], s, out, rfl, hres⟩
    | none => simp [State.fuel, hres] at hf
  | succ n ih =>
    intro s hI hf
    cases hres : s.result with
    | some out => exact ⟨[], s, out, rfl, hres⟩
    | none =>
      obtain ⟨e, s1, h1⟩ := progress net tasks s hI hres
      have hlt := fuel_step net s s1 e h1
      obtain ⟨es, s2, out, hrun, hout⟩ := ih s1 (inv_step net tasks s s1 e hI h1) (by omega)
      refine ⟨e :: es, s2, out, ?_, hout⟩
      simp only [run, h1]
      exact hrun

/-- The events of a run and the fuel left never exceed the fuel at the
start. -/
theorem run_length_le (net : Nat → String → Exchange) : ∀ (es : List Event) (s s1 : State),
    run net s es = some s1 → es.length + s1.fuel ≤ s.fuel := by
  intro es
  induction es with
  | nil =>
    intro s s1 h
    simp only [run, Option.some.injEq] at h
    rw [h]; simp
  | cons e es ih =>
    intro s s1 h
    simp only [run] at h
    cases hs : step net s e with
    | none => simp [hs] at h
    | some s2 =>
      simp only [hs] at h
      have h1 := ih s2 s1 h
      have h2 := fuel_step net s s2 e hs
      simp only [List.length_cons]
      omega

theorem crossProduct_length (domains sources : List String) :
    (crossProduct domains sources).length = domains.length * sources.length := by
  unfold crossProduct
  induction domains with
  | nil => simp
  | cons d ds ih =>
    rw [List.flatMap_cons, List.length_append, ih, List.length_map, List.length_cons,
      Nat.succ_mul, Nat.add_comm]

/-- Liveness of `fetchURLsConcurrently`: a run has at most `7 * pairs + 1`
events, and every run that has not yet returned can be continued to the
`return`. -/
theorem fetch_returns (net : Nat → String → Exchange) (domains sources : List String)
    (timeout : Nat) (schedule : List Event) (s : State)
    (h : run net (initState domains sources timeout) schedule = some s) :
    schedule.length ≤ 7 * (domains.length * sources.length) + 1 ∧
      ∃ more out,
        fetchURLsConcurrently net domains sources timeout (schedule ++ more) = some out := by
  have hI := inv_run net (crossProduct domains sources) schedule _ s
    (inv_init net domains sources timeout) h
  constructor
  · have hle := run_length_le net schedule _ s h
    have hlen := crossProduct_length domains sources
    have hinit : (initState domains sources timeout).fuel
        = 7 * (domains.length * sources.length) + 1 := by
      simp [State.fuel, initState, hlen]
      omega
    omega
  · obtain ⟨es, s1, out, hrun, hout⟩ := completes net _ s.fuel s hI (Nat.le_refl _)
    refine ⟨es, out, ?_⟩
    unfold fetchURLsConcurrently
    rw [run_append net schedule es _ s h, hrun]
    exact hout

/-! ## The sink -/

/-- A `Write` on the file that reports no error has appended all the data. -/
theorem File.write_complete (w : FileWorld) (f : File) (p : List Char)
    (h : (File.write w f p).2.2 = false) :
    (File.write w f p).1.content = f.content ++ p ∧ (File.write w f p).2.1 = p.length := by
  unfold File.write at h ⊢
  cases hw : w.writeError f.writes with
  | none => simp
  | some n => simp [hw] at h

/-- A `Flush` that returns no error started without error and has moved the
whole buffer to the file. -/
theorem Writer.flush_ok (w : FileWorld) (b : Writer) (h : (Writer.flush w b).err = false) :
    b.err = false ∧ (Writer.flush w b).buf = [] ∧
      (Writer.flush w b).file.content = b.file.content ++ b.buf := by
  unfold Writer.flush at h ⊢
  rcases Bool.eq_false_or_eq_true b.err with he | he
  · rw [if_pos he, he] at h; cases h
  · have hne : ¬ b.err = true := by rw [he]; simp
    rw [if_neg hne] at h ⊢
    refine ⟨he, ?_⟩
    by_cases hn : b.buf.length = 0
    · rw [if_pos hn]
      have : b.buf = [] := List.length_eq_zero.1 hn
      simp [this]
    · rw [if_neg hn] at h ⊢
      by_cases hc : ((File.write w b.file b.buf).2.2
          || decide ((File.write w b.file b.buf).2.1 < b.buf.length)) = true
      · rw [if_pos hc] at h; cases h
      · rw [if_neg hc]
        have hf : (File.write w b.file b.buf).2.2 = false := by
          cases hx : (File.write w b.file b.buf).2.2 with
          | false => rfl
          | true => simp [hx] at hc
        exact ⟨rfl, (File.write_complete w b.file b.buf hf).1⟩

/-- After a `Flush` the buffer is empty or the error is set. -/
theorem Writer.flush_settled (w : FileWorld) (b : Writer) :
    (Writer.flush w b).err = true ∨ (Writer.flush w b).buf = [] := by
  cases he : (Writer.flush w b).err with
  | true => exact Or.inl rfl
  | false => exact Or.inr (Writer.flush_ok w b he).2.1

/-- Once the exit test of the loop of `Write` holds, the loop does nothing. -/
theorem Writer.writeLoop_of_settled (w : FileWorld) (fuel : Nat) (b : Writer) (p : List Char)
    (h : ¬ (p.length > b.available ∧ b.err = false)) :
    Writer.writeLoop w fuel b p = (b, p) := by
  cases fuel with
  | zero => rfl
  | succ k => rw [Writer.writeLoop, if_neg h]

/-- A round of the loop of `Write` with an empty buffer writes through. -/
theorem Writer.writeLoop_through (w : FileWorld) (fuel : Nat) (b : Writer) (p : List Char)
    (hc : p.length > b.available ∧ b.err = false) (hn : b.buf.length = 0) :
    Writer.writeLoop w (fuel + 1) b p
      = Writer.writeLoop w fuel
          { b with file := (b.file.write w p).1, err := (b.file.write w p).2.2 }
          (p.drop (b.file.write w p).2.1) := by
  rw [Writer.writeLoop, if_pos hc, if_pos hn]

/-- A round of the loop of `Write` with data in the buffer fills the buffer
and flushes it. -/
theorem Writer.writeLoop_fill (w : FileWorld) (fuel : Nat) (b : Writer) (p : List Char)
    (hc : p.length > b.available ∧ b.err = false) (hn : ¬ b.buf.length = 0) :
    Writer.writeLoop w (fuel + 1) b p
      = Writer.writeLoop w fuel
          (Writer.flush w { b with buf := b.buf ++ p.take b.available })
          (p.drop b.available) := by
  rw [Writer.writeLoop, if_pos hc, if_neg hn]

/-- The loop of `Write` loses nothing: if it ends without error, the file, the
buffer and the data still to be buffered together are what they were. -/
theorem Writer.writeLoop_ok (w : FileWorld) : ∀ (fuel : Nat) (b : Writer) (p : List Char),
    (Writer.writeLoop w fuel b p).1.err = false →
      b.err = false ∧
        (Writer.writeLoop w fuel b p).1.file.content ++ (Writer.writeLoop w fuel b p).1.buf
            ++ (Writer.writeLoop w fuel b p).2
          = b.file.content ++ b.buf ++ p := by
  intro fuel
  induction fuel with
  | zero => intro b p h; exact ⟨h, rfl⟩
  | succ fuel ih =>
    intro b p h
    by_cases hc : p.length > b.available ∧ b.err = false
    · by_cases hn : b.buf.length = 0
      · rw [Writer.writeLoop_through w fuel b p hc hn] at h ⊢
        obtain ⟨he, heq⟩ := ih _ _ h
        have hw := File.write_complete w b.file p he
        have hb : b.buf = [] := List.length_eq_zero.1 hn
        refine ⟨hc.2, ?_⟩
        rw [heq]
        simp only [hw.1, hw.2, hb, List.drop_length, List.append_nil]
      · rw [Writer.writeLoop_fill w fuel b p hc hn] at h ⊢
        obtain ⟨he, heq⟩ := ih _ _ h
        obtain ⟨_, hbuf, hcont⟩ := Writer.flush_ok w _ he
        refine ⟨hc.2, ?_⟩
        rw [heq, hbuf, hcont]
        simp only [List.append_nil, List.append_assoc, List.take_append_drop]
    · rw [Writer.writeLoop_of_settled w _ b p hc] at h ⊢
      exact ⟨h, rfl⟩

/-- A `Write` that leaves no error set started without error and has added
its data behind what the file and the buffer held. -/
theorem Writer.write_ok (w : FileWorld) (b : Writer) (p : List Char)
    (h : (Writer.write w b p).err = false) :
    b.err = false ∧
      (Writer.write w b p).file.content ++ (Writer.write w b p).buf
        = b.file.content ++ b.buf ++ p := by
  unfold Writer.write at h ⊢
  rcases Bool.eq_false_or_eq_true (Writer.writeLoop w 3 b p).1.err with he | he
  · rw [if_pos he] at h; rw [he] at h; cases h
  · have hne : ¬ (Writer.writeLoop w 3 b p).1.err = true := by rw [he]; simp
    rw [if_neg hne]
    have := Writer.writeLoop_ok w 3 b p he
    refine ⟨this.1, ?_⟩
    rw [← this.2]
    simp only [List.append_assoc]

/-- With an empty buffer one round of the loop of `Write` is enough. -/
theorem Writer.writeLoop_exit_empty (w : FileWorld) (fuel : Nat) (b : Writer) (p : List Char)
    (hb : b.buf = []) :
    ¬ ((Writer.writeLoop w (fuel + 1) b p).2.length
          > (Writer.writeLoop w (fuel + 1) b p).1.available
        ∧ (Writer.writeLoop w (fuel + 1) b p).1.err = false) := by
  by_cases hc : p.length > b.available ∧ b.err = false
  · have hn : b.buf.length = 0 := by rw [hb]; rfl
    have hst : ¬ ((p.drop (b.file.write w p).2.1).length
          > Writer.available { b with file := (b.file.write w p).1,
                                      err := (b.file.write w p).2.2 }
        ∧ (b.file.write w p).2.2 = false) := by
      rintro ⟨h1, h2⟩
      have hw := File.write_complete w b.file p h2
      rw [hw.2, List.drop_length] at h1
      simp at h1
    rw [Writer.writeLoop_through w fuel b p hc hn, Writer.writeLoop_of_settled w fuel _ _ hst]
    exact hst
  · rw [Writer.writeLoop_of_settled w _ b p hc]
    exact hc

/-- Three rounds of fuel are enough: the loop of `Write` ends because its exit
test holds, not because the fuel is used up. -/
theorem Writer.writeLoop_exit (w : FileWorld) (b : Writer) (p : List Char) :
    ¬ ((Writer.writeLoop w 3 b p).2.length > (Writer.writeLoop w 3 b p).1.available
        ∧ (Writer.writeLoop w 3 b p).1.err = false) := by
  by_cases hb : b.buf = []
  · exact Writer.writeLoop_exit_empty w 2 b p hb
  · by_cases hc : p.length > b.available ∧ b.err = false
    · have hn : ¬ b.buf.length = 0 := fun e => hb (List.length_eq_zero.1 e)
      rw [Writer.writeLoop_fill w 2 b p hc hn]
      rcases Writer.flush_settled w { b with buf := b.buf ++ List.take b.available p }
        with he | he
      · have hst : ¬ ((p.drop b.available).length
              > (Writer.flush w { b with buf := b.buf ++ List.take b.available p }).available
            ∧ (Writer.flush w { b with buf := b.buf ++ List.take b.available p }).err
                = false) := by
          rintro ⟨_, h2⟩
          rw [he] at h2
          cases h2
        rw [Writer.writeLoop_of_settled w 2 _ _ hst]
        exact hst
      · exact Writer.writeLoop_exit_empty w 1 _ _ he
    · rw [Writer.writeLoop_of_settled w _ b p hc]
      exact hc

/-- What the `Fprintln` loop of `saveToFile` hands to the writer. -/
theorem saveToFile_loop (w : FileWorld) : ∀ (urls : List String) (b : Writer),
    (urls.foldl (fun b u => Writer.write w b (u.toList ++ ['\n'])) b).err = false →
      b.err = false ∧
        (urls.foldl (fun b u => Writer.write w b (u.toList ++ ['\n'])) b).file.content
            ++ (urls.foldl (fun b u => Writer.write w b (u.toList ++ ['\n'])) b).buf
          = b.file.content ++ b.buf ++ urls.flatMap (fun u => u.toList ++ ['\n']) := by
  intro urls
  induction urls with
  | nil => intro b h; exact ⟨h, by simp⟩
  | cons u us ih =>
    intro b h
    rw [List.foldl_cons] at h ⊢
    obtain ⟨h1, heq⟩ := ih _ h
    obtain ⟨h2, heq2⟩ := Writer.write_ok w b _ h1
    refine ⟨h2, ?_⟩
    rw [heq, heq2, List.flatMap_cons]
    simp only [List.append_assoc]

/-- When `saveToFile` returns `nil`, the file holds every URL followed by a
line feed, in order, and nothing else; the other files are untouched. -/
theorem saveToFile_content (w : FileWorld) (disk : Disk) (urls : List String)
    (filename : String) (h : (saveToFile w disk urls filename).2 = none) :
    (saveToFile w disk urls filename).1 filename
        = some (urls.flatMap (fun u => u.toList ++ ['\n'])) ∧
      ∀ path, path ≠ filename → (saveToFile w disk urls filename).1 path = disk path := by
  unfold saveToFile at h ⊢
  cases hc : w.createError filename with
  | some e => rw [hc] at h; cases h
  | none =>
    rw [hc] at h
    simp only at h ⊢
    rcases Bool.eq_false_or_eq_true (Writer.flush w (urls.foldl
        (fun b u => Writer.write w b (u.toList ++ ['\n']))
        (Writer.mk (File.mk [] 0) [] false))).err with herr | herr
    · rw [if_pos herr] at h; cases h
    · obtain ⟨h1, _, hcont⟩ := Writer.flush_ok w _ herr
      obtain ⟨_, heq⟩ := saveToFile_loop w urls _ h1
      constructor
      · rw [if_pos trivial, hcont, heq]
        simp
      · intro path hp
        rw [if_neg hp]

/-- On a file system on which nothing fails `saveToFile` returns `nil`. -/
theorem saveToFile_healthy (disk : Disk) (urls : List String) (filename : String) :
    (saveToFile healthy disk urls filename).2 = none := by
  have hwf : ∀ (f : File) (p : List Char),
      (File.write healthy f p).2.2 = false ∧ (File.write healthy f p).2.1 = p.length := by
    intro f p; exact ⟨rfl, rfl⟩
  have hflush : ∀ b : Writer, b.err = false → (Writer.flush healthy b).err = false := by
    intro b hb
    have hne : ¬ b.err = true := by rw [hb]; simp
    unfold Writer.flush
    rw [if_neg hne]
    by_cases hn : b.buf.length = 0
    · rw [if_pos hn]; exact hb
    · rw [if_neg hn, if_neg (by simp [(hwf b.file b.buf).1, (hwf b.file b.buf).2])]
  have hloop : ∀ (fuel : Nat) (b : Writer) (p : List Char), b.err = false →
      (Writer.writeLoop healthy fuel b p).1.err = false := by
    intro fuel
    induction fuel with
    | zero => intro b p hb; exact hb
    | succ k ih =>
      intro b p hb
      by_cases hc : p.length > b.available ∧ b.err = false
      · by_cases hn : b.buf.length = 0
        · rw [Writer.writeLoop_through healthy k b p hc hn]
          exact ih _ _ (hwf b.file p).1
        · rw [Writer.writeLoop_fill healthy k b p hc hn]
          exact ih _ _ (hflush _ hb)
      · rw [Writer.writeLoop_of_settled healthy _ b p hc]
        exact hb
  have hwrite : ∀ (b : Writer) (p : List Char), b.err = false →
      (Writer.write healthy b p).err = false := by
    intro b p hb
    have h3 := hloop 3 b p hb
    have hne : ¬ (Writer.writeLoop healthy 3 b p).1.err = true := by rw [h3]; simp
    unfold Writer.write
    rw [if_neg hne]
    exact h3
  have hfold : ∀ (us : List String) (b : Writer), b.err = false →
      (us.foldl (fun b u => Writer.write healthy b (u.toList ++ ['\n'])) b).err = false := by
    intro us
    induction us with
    | nil => intro b hb; exact hb
    | cons u us ih => intro b hb; rw [List.foldl_cons]; exact ih _ (hwrite _ _ hb)
  have hend := hflush _ (hfold urls (Writer.mk (File.mk [] 0) [] false) rfl)
  have hne : ¬ (Writer.flush healthy (urls.foldl
      (fun b u => Writer.write healthy b (u.toList ++ ['\n']))
      (Writer.mk (File.mk [] 0) [] false))).err = true := by rw [hend]; simp
  unfold saveToFile
  have hcreate : healthy.createError filename = none := rfl
  rw [hcreate]
  simp only
  rw [if_neg hne]

theorem splitOn_lines : ∀ urls : List String, (∀ u ∈ urls, '\n' ∉ u.toList) →
    splitOn '\n' (urls.flatMap (fun u => u.toList ++ ['\n']))
      = urls.map String.toList ++ [[]] := by
  intro urls
  induction urls with
  | nil => intro _; rfl
  | cons u us ih =>
    intro h
    have hu : '\n' ∉ u.toList := h u (List.mem_cons_self _ _)
    have hus : ∀ v ∈ us, '\n' ∉ v.toList := fun v hv => h v (List.mem_cons_of_mem _ hv)
    rw [List.flatMap_cons, List.append_assoc, List.singleton_append,
      splitOn_append '\n' _ _ hu, ih hus]
    rfl

/-- The lines of a file that holds URLs without line feed, each followed by a
line feed, are these URLs. -/
theorem fileLines_of_urls (urls : List String) (h : ∀ u ∈ urls, '\n' ∉ u.toList) :
    fileLines (urls.flatMap (fun u => u.toList ++ ['\n'])) = urls := by
  unfold fileLines
  simp only [splitOn_lines urls h, List.getLast?_concat, if_true, List.dropLast_concat,
    List.map_map]
  have : (String.mk ∘ String.toList) = id := by
    funext u; cases u; rfl
  rw [this, List.map_id]

/-! ## Claims about the orchestrator -/

theorem allContributions_nil_of_failed (net : Nat → String → Exchange)
    (tasks : List (Nat × String × String))
    (hfail : ∀ t ∈ tasks, adapterOutcome (net t.1) t.2.1 t.2.2 = none) :
    tasks.flatMap (fun t => contribution (net t.1) t.2.1 t.2.2) = [] := by
  induction tasks with
  | nil => rfl
  | cons t ts ih =>
    rw [List.flatMap_cons, ih (fun u hu => hfail u (List.mem_cons_of_mem _ hu))]
    simp [contribution, hfail t (List.mem_cons_self _ _)]

theorem allContributions_length (net : Nat → String → Exchange) (M : Nat)
    (tasks : List (Nat × String × String))
    (hsucc : ∀ t ∈ tasks, (adapterOutcome (net t.1) t.2.1 t.2.2).map List.length = some M) :
    (tasks.flatMap (fun t => contribution (net t.1) t.2.1 t.2.2)).length
      = tasks.length * M := by
  induction tasks with
  | nil => simp
  | cons t ts ih =>
    rw [List.flatMap_cons, List.length_append,
      ih (fun u hu => hsucc u (List.mem_cons_of_mem _ hu)), List.length_cons, Nat.succ_mul,
      Nat.add_comm]
    have ht := hsucc t (List.mem_cons_self _ _)
    cases ho : adapterOutcome (net t.1) t.2.1 t.2.2 with
    | none => rw [ho] at ht; cases ht
    | some urls =>
      rw [ho] at ht
      simp only [Option.map_some', Option.some.injEq] at ht
      simp [contribution, ho, ht]

/-- C3: along every schedule, the list `fetchURLsConcurrently` returns is a
permutation of the concatenation, over the cross product of domains and
sources, of each pair's contribution; every run is finite and can be continued
until the function returns; and a pair contributes the URLs its adapter returned when
the source is `wayback` or `commoncrawl` and the call succeeded, and nothing
otherwise. -/
theorem fetchURLsConcurrently_perm (net : Nat → String → Exchange)
    (domains sources : List String) (timeout : Nat) (schedule : List Event) :
    (∀ out, fetchURLsConcurrently net domains sources timeout schedule = some out →
        List.Perm out (allContributions net domains sources)) ∧
      (∀ s, run net (initState domains sources timeout) schedule = some s →
        schedule.length ≤ 7 * (domains.length * sources.length) + 1 ∧
          ∃ more out,
            fetchURLsConcurrently net domains sources timeout (schedule ++ more) = some out) ∧
      (∀ (world : String → Exchange) (domain source : String),
        contribution world domain source
          = if source = "wayback" then ((fetchWaybackURLs world domain).toOption).getD []
            else if source = "commoncrawl" then
              ((fetchCommonCrawlURLs world domain).toOption).getD []
            else []) := by
  refine ⟨fun out h => fetch_perm net domains sources timeout schedule out h,
    fun s h => fetch_returns net domains sources timeout schedule s h, ?_⟩
  intro world domain source
  unfold contribution adapterOutcome
  split
  · rfl
  · split <;> rfl

/-- C3 at a schedule in which the goroutine spawned third appends first: the
list returned is in another order than the spawn order. -/
theorem fetchURLsConcurrently_perm_witness :
    fetchURLsConcurrently twoAnswers ["a.com", "b.com"] ["wayback", "bogus"] 10 lateFirst
        = some ["http://b.com/?y=2", "http://a.com/?x=1"] ∧
      List.Perm ["http://b.com/?y=2", "http://a.com/?x=1"]
        (allContributions twoAnswers ["a.com", "b.com"] ["wayback", "bogus"]) :=
  ⟨by decide,
    (fetchURLsConcurrently_perm twoAnswers ["a.com", "b.com"] ["wayback", "bogus"] 10
      lateFirst).1 _ (by decide)⟩

/-- C4: when every adapter call fails or names an unknown source,
`fetchURLsConcurrently` returns the empty list along every schedule, and it
does return; its result is a plain list, there is no error to report. -/
theorem fetchURLsConcurrently_all_failed (net : Nat → String → Exchange)
    (domains sources : List String) (timeout : Nat)
    (hfail : ∀ t ∈ (crossProduct domains sources).enum,
      adapterOutcome (net t.1) t.2.1 t.2.2 = none) :
    (∀ schedule out,
        fetchURLsConcurrently net domains sources timeout schedule = some out → out = []) ∧
      ∃ schedule, fetchURLsConcurrently net domains sources timeout schedule = some [] := by
  have hall : ∀ schedule out,
      fetchURLsConcurrently net domains sources timeout schedule = some out → out = [] := by
    intro schedule out h
    have hp := fetch_perm net domains sources timeout schedule out h
    unfold allContributions at hp
    rw [allContributions_nil_of_failed net _ hfail] at hp
    exact List.Perm.eq_nil hp
  refine ⟨hall, ?_⟩
  obtain ⟨more, out, h⟩ := (fetch_returns net domains sources timeout [] _ rfl).2
  have := hall _ out h
  rw [this] at h
  exact ⟨_, h⟩

/-- C4 on a network on which every call fails, with one unknown source. -/
theorem fetchURLsConcurrently_all_failed_witness :
    (∀ t ∈ (crossProduct ["a.com", "b.com"] ["wayback", "commoncrawl", "bogus"]).enum,
        adapterOutcome (allDown t.1) t.2.1 t.2.2 = none) ∧
      fetchURLsConcurrently allDown ["a.com", "b.com"] ["wayback", "commoncrawl", "bogus"] 10
        allDownSchedule = some [] ∧
      ∀ schedule out,
        fetchURLsConcurrently allDown ["a.com", "b.com"] ["wayback", "commoncrawl", "bogus"] 10
          schedule = some out → out = [] :=
  ⟨by decide, by decide,
    (fetchURLsConcurrently_all_failed allDown ["a.com", "b.com"]
      ["wayback", "commoncrawl", "bogus"] 10 (by decide)).1⟩

/-- C5: when each of the `N = |domains| * |sources|` adapter calls succeeds
with `M` URLs, the list returned has exactly `N * M` entries along every
schedule and is a permutation of the URLs returned by the calls: none is lost,
none is duplicated; and the function does return. -/
theorem fetchURLsConcurrently_count (net : Nat → String → Exchange)
    (domains sources : List String) (timeout : Nat) (M : Nat)
    (hsucc : ∀ t ∈ (crossProduct domains sources).enum,
      (adapterOutcome (net t.1) t.2.1 t.2.2).map List.length = some M) :
    (∀ schedule out,
        fetchURLsConcurrently net domains sources timeout schedule = some out →
          out.length = domains.length * sources.length * M ∧
            List.Perm out (allContributions net domains sources)) ∧
      ∃ schedule out, fetchURLsConcurrently net domains sources timeout schedule = some out := by
  constructor
  · intro schedule out h
    have hp := fetch_perm net domains sources timeout schedule out h
    refine ⟨?_, hp⟩
    rw [hp.length_eq]
    unfold allContributions
    rw [allContributions_length net M _ hsucc, List.enum_length, crossProduct_length]
  · obtain ⟨more, out, h⟩ := (fetch_returns net domains sources timeout [] _ rfl).2
    exact ⟨_, out, h⟩

/-- C5 for two pairs with two URLs each, the goroutines interleaved. -/
theorem fetchURLsConcurrently_count_witness :
    (∀ t ∈ (crossProduct ["a.com", "b.com"] ["wayback"]).enum,
        (adapterOutcome (pairAnswers t.1) t.2.1 t.2.2).map List.length = some 2) ∧
      fetchURLsConcurrently pairAnswers ["a.com", "b.com"] ["wayback"] 10 interleaved
        = some ["http://b.com/?y=2", "http://b.com/", "http://a.com/?x=1", "http://a.com/"] ∧
      ["http://b.com/?y=2", "http://b.com/", "http://a.com/?x=1", "http://a.com/"].length
        = ["a.com", "b.com"].length * ["wayback"].length * 2 :=
  ⟨by decide, by decide,
    ((fetchURLsConcurrently_count pairAnswers ["a.com", "b.com"] ["wayback"] 10 2
      (by decide)).1 interleaved _ (by decide)).1⟩

/-- C6 (refuted as stated): a URL may contain a line feed, and `saveToFile`
writes it as it is. For the single URL made of `http://a.com/?x=1`, a line
feed and `http://b.com/`, the call succeeds and the file has two lines, so it
has not as many lines as there are URLs and its first line is not the first
URL. -/
theorem saveToFile_url_with_line_feed :
    (saveToFile healthy (fun _ => none) ["http://a.com/?x=1\nhttp://b.com/"]
        "param_urls.txt").2 = none ∧
      ((saveToFile healthy (fun _ => none) ["http://a.com/?x=1\nhttp://b.com/"]
          "param_urls.txt").1 "param_urls.txt").map fileLines
        = some ["http://a.com/?x=1", "http://b.com/"] ∧
      ((saveToFile healthy (fun _ => none) ["http://a.com/?x=1\nhttp://b.com/"]
          "param_urls.txt").1 "param_urls.txt").map fileLines
        ≠ some ["http://a.com/?x=1\nhttp://b.com/"] := by
  decide

/-- C6 (amended): when `saveToFile` returns success, the content of the file
is exactly the URLs in order, each followed by one line feed, with nothing
before, between or after them, whatever the file held before; and when no URL
contains a line feed, the lines of the file are exactly the URLs: as many
lines as URLs, the i-th line being the i-th URL. -/
theorem saveToFile_writes_lines (w : FileWorld) (disk : Disk) (urls : List String)
    (filename : String) (h : (saveToFile w disk urls filename).2 = none) :
    (saveToFile w disk urls filename).1 filename
        = some (urls.flatMap (fun u => u.toList ++ ['\n'])) ∧
      ((∀ u ∈ urls, '\n' ∉ u.toList) →
        ((saveToFile w disk urls filename).1 filename).map fileLines = some urls) := by
  have hc := (saveToFile_content w disk urls filename h).1
  refine ⟨hc, ?_⟩
  intro hu
  rw [hc, Option.map_some', fileLines_of_urls urls hu]

/-- C6 (amended) for two URLs written over a file that existed before. -/
theorem saveToFile_writes_lines_witness :
    (saveToFile healthy (fun _ => some "old content".toList)
        ["http://a.com/?x=1", "http://b.com/?y=2"] "param_urls.txt").2 = none ∧
      (saveToFile healthy (fun _ => some "old content".toList)
          ["http://a.com/?x=1", "http://b.com/?y=2"] "param_urls.txt").1 "param_urls.txt"
        = some "http://a.com/?x=1\nhttp://b.com/?y=2\n".toList ∧
      ((saveToFile healthy (fun _ => some "old content".toList)
          ["http://a.com/?x=1", "http://b.com/?y=2"] "param_urls.txt").1
            "param_urls.txt").map fileLines
        = some ["http://a.com/?x=1", "http://b.com/?y=2"] :=
  ⟨by decide,
    (saveToFile_writes_lines healthy (fun _ => some "old content".toList)
      ["http://a.com/?x=1", "http://b.com/?y=2"] "param_urls.txt" (by decide)).1,
    (saveToFile_writes_lines healthy (fun _ => some "old content".toList)
      ["http://a.com/?x=1", "http://b.com/?y=2"] "param_urls.txt" (by decide)).2 (by decide)⟩

/-- With four pairs of which only the `k`-th has a successful call, the
contributions are those of that call. -/
theorem allContributions_one (net : Nat → String → Exchange) (d1 d2 s1 s2 : String)
    (urls : List String) (k : Nat) (hk : k < 4)
    (hone : ∀ t ∈ (crossProduct [d1, d2] [s1, s2]).enum,
      adapterOutcome (net t.1) t.2.1 t.2.2 = if t.1 = k then some urls else none) :
    allContributions net [d1, d2] [s1, s2] = urls := by
  have h0 := hone (0, (d1, s1)) (by simp [crossProduct, List.enum, List.enumFrom])
  have h1 := hone (1, (d1, s2)) (by simp [crossProduct, List.enum, List.enumFrom])
  have h2 := hone (2, (d2, s1)) (by simp [crossProduct, List.enum, List.enumFrom])
  have h3 := hone (3, (d2, s2)) (by simp [crossProduct, List.enum, List.enumFrom])
  simp only at h0 h1 h2 h3
  have e : allContributions net [d1, d2] [s1, s2]
      = contribution (net 0) d1 s1 ++ (contribution (net 1) d1 s2
          ++ (contribution (net 2) d2 s1 ++ contribution (net 3) d2 s2)) := by
    simp [allContributions, crossProduct, List.enum, List.enumFrom]
  rw [e]
  unfold contribution
  rw [h0, h1, h2, h3]
  interval_cases k <;> simp

/-- C7: with two domains and two sources, when exactly one of the four adapter
calls succeeds, returning `http://a.com/?x=1` and `http://a.com/`, and the
other three fail, every run of fetch, filter and save that ends with a
successful save leaves a file whose content is the one line
`http://a.com/?x=1`; and on a file system on which nothing fails such a run
exists. -/
theorem main_one_success (net : Nat → String → Exchange) (d1 d2 s1 s2 : String)
    (timeout : Nat) (k : Nat) (hk : k < 4)
    (hone : ∀ t ∈ (crossProduct [d1, d2] [s1, s2]).enum,
      adapterOutcome (net t.1) t.2.1 t.2.2
        = if t.1 = k then some ["http://a.com/?x=1", "http://a.com/"] else none) :
    (∀ (w : FileWorld) (disk : Disk) (output : String) (schedule : List Event),
        (main net w disk [d1, d2] [s1, s2] timeout output schedule).map (fun r => r.2)
            = some none →
          (main net w disk [d1, d2] [s1, s2] timeout output schedule).bind
              (fun r => r.1 output) = some "http://a.com/?x=1\n".toList ∧
            ((main net w disk [d1, d2] [s1, s2] timeout output schedule).bind
              (fun r => r.1 output)).map fileLines = some ["http://a.com/?x=1"]) ∧
      (∀ (disk : Disk) (output : String), ∃ schedule,
        (main net healthy disk [d1, d2] [s1, s2] timeout output schedule).map (fun r => r.2)
          = some none) := by
  constructor
  · intro w disk output schedule hrun
    unfold main at hrun ⊢
    cases hf : fetchURLsConcurrently net [d1, d2] [s1, s2] timeout schedule with
    | none => rw [hf] at hrun; cases hrun
    | some allURLs =>
      rw [hf] at hrun
      simp only [Option.map_some', Option.some.injEq, Option.some_bind] at hrun ⊢
      have hp := fetch_perm net [d1, d2] [s1, s2] timeout schedule allURLs hf
      rw [allContributions_one net d1 d2 s1 s2 _ k hk hone] at hp
      have hfilter : extractParamURLs allURLs = ["http://a.com/?x=1"] := by
        rw [extractParamURLs_eq_filter]
        have hp2 := hp.filter (fun u => paramRegex.MatchString u)
        have hl : List.filter (fun u => paramRegex.MatchString u)
            ["http://a.com/?x=1", "http://a.com/"] = ["http://a.com/?x=1"] := by decide
        rw [hl] at hp2
        exact List.perm_singleton.1 hp2
      rw [hfilter] at hrun ⊢
      have hc := (saveToFile_content w disk ["http://a.com/?x=1"] output hrun).1
      rw [hc]
      constructor
      · decide
      · decide
  · intro disk output
    obtain ⟨more, out, h⟩ := (fetch_returns net [d1, d2] [s1, s2] timeout [] _ rfl).2
    refine ⟨[] ++ more, ?_⟩
    unfold main
    rw [h]
    simp only [Option.map_some', Option.some.injEq]
    exact saveToFile_healthy disk _ output

/-- C7 at two concrete domains and the two known sources, where only the call
for `b.com` at the Wayback Machine succeeds. -/
theorem main_one_success_witness :
    (∀ t ∈ (crossProduct ["a.com", "b.com"] ["wayback", "commoncrawl"]).enum,
        adapterOutcome (onlyAnswer 2 t.1) t.2.1 t.2.2
          = if t.1 = 2 then some ["http://a.com/?x=1", "http://a.com/"] else none) ∧
      (main (onlyAnswer 2) healthy (fun _ => none) ["a.com", "b.com"]
        ["wayback", "commoncrawl"] 10 "param_urls.txt" oneSucceeds).map (fun r => r.2)
          = some none ∧
      (main (onlyAnswer 2) healthy (fun _ => none) ["a.com", "b.com"]
        ["wayback", "commoncrawl"] 10 "param_urls.txt" oneSucceeds).bind
          (fun r => r.1 "param_urls.txt") = some "http://a.com/?x=1\n".toList :=
  ⟨by decide, by decide,
    ((main_one_success (onlyAnswer 2) "a.com" "b.com" "wayback" "commoncrawl" 10 2
      (by decide) (by decide)).1 healthy (fun _ => none) "param_urls.txt" oneSucceeds
      (by decide)).1⟩

/-- C8 (the code does not do this): the timeout handed to
`fetchURLsConcurrently` is used nowhere. With a timeout of 10 seconds and a
Wayback exchange that takes 60 seconds and then answers, the task does not
fail: its URL is in the list returned. The value of the timeout never changes
the result. -/
theorem timeout_not_enforced :
    (slowAnswer 0 (waybackRequestURL "a.com")).elapsed > 10000000000 ∧
      fetchURLsConcurrently slowAnswer ["a.com"] ["wayback"] 10000000000
        [Event.main, Event.go 0, Event.go 0, Event.go 0, Event.go 0, Event.go 0, Event.go 0,
          Event.main]
        = some ["http://a.com/?x=1"] ∧
      ∀ (net : Nat → String → Exchange) (domains sources : List String)
        (timeout1 timeout2 : Nat) (schedule : List Event),
        fetchURLsConcurrently net domains sources timeout1 schedule
          = fetchURLsConcurrently net domains sources timeout2 schedule :=
  ⟨by decide, by decide, fun _ _ _ _ _ _ => rfl⟩

end ParamInspector
